import Mathlib

/-!
Verification of the event fingerprint grouping subsystem of the repository:
the alert deduplication engine (`03-observability/alert_deduplicator.py`) and
the log error classifier (`03-observability/log_classifier.py`).

Modelling conventions:
* timestamps are integers (seconds); `timedelta(minutes=5)` becomes `300` and
  `timedelta(minutes=30)` becomes `1800`;
* the md5 digest truncated to 12 hex characters is modelled as the identity on
  the fingerprint key (`name|severity` for alerts, the normalized message for
  log lines): the design accepts any stable digest and places hash collisions
  out of scope, and no claim depends on the digest itself;
* Python dicts are modelled as association lists in insertion order, which is
  the order `dict.values()` iterates in;
* the Boolean returned by `process_alert` is the decision: `true` is Emit
  ("send the alert"), `false` is Suppress.
-/

/-! ## Alert deduplicator: data model (`alert_deduplicator.py`) -/

inductive AlertSeverity where
  | critical
  | warning
  | info
deriving DecidableEq, Repr

def AlertSeverity.value : AlertSeverity → String
  | .critical => "critical"
  | .warning => "warning"
  | .info => "info"

structure Alert where
  id : String
  name : String
  severity : AlertSeverity
  service : String
  message : String
  timestamp : Int
  labels : List (String × String) := []
deriving DecidableEq, Repr

structure AlertGroup where
  signature : String
  name : String
  severity : AlertSeverity
  count : Nat
  first_seen : Int
  last_seen : Int
  services : List String
  alerts : List Alert
deriving DecidableEq, Repr

structure AlertDeduplicator where
  groups : List (String × AlertGroup) := []
  suppressed_count : Nat := 0
deriving DecidableEq, Repr

def SUPPRESSION_WINDOW : Int := 300

def ACTIVE_WINDOW : Int := 1800

/-- `AlertDeduplicator._get_signature`: fingerprint `f"{alert.name}|{alert.severity.value}"`
(md5 truncation modelled as the identity, see the file header). -/
def getSignature (a : Alert) : String := a.name ++ "|" ++ a.severity.value

def lookupGroup (st : List (String × AlertGroup)) (sig : String) : Option AlertGroup :=
  match st with
  | [] => none
  | (k, g) :: rest => if k = sig then some g else lookupGroup rest sig

/-- In-place mutation of the dict entry at a key (`self.groups[signature]` updates). -/
def setGroup : List (String × AlertGroup) → String → AlertGroup → List (String × AlertGroup)
  | [], _, _ => []
  | (k, g0) :: rest, sig, g =>
      if k = sig then (k, g) :: setGroup rest sig g else (k, g0) :: setGroup rest sig g

/-- `AlertDeduplicator.process_alert`, faithful to the three branches of the
source: suppress within the window (count, last_seen, services, alerts
updated), emit on window expiry (count, last_seen, alerts updated), create on
unknown signature. -/
def process_alert (d : AlertDeduplicator) (a : Alert) : Bool × AlertDeduplicator :=
  let signature := getSignature a
  match lookupGroup d.groups signature with
  | some group =>
      let time_since_last := a.timestamp - group.last_seen
      if time_since_last < SUPPRESSION_WINDOW then
        let g : AlertGroup :=
          { group with
            count := group.count + 1
            last_seen := a.timestamp
            services := if a.service ∈ group.services then group.services
                        else group.services ++ [a.service]
            alerts := group.alerts ++ [a] }
        (false, { groups := setGroup d.groups signature g,
                  suppressed_count := d.suppressed_count + 1 })
      else
        let g : AlertGroup :=
          { group with
            count := group.count + 1
            last_seen := a.timestamp
            alerts := group.alerts ++ [a] }
        (true, { d with groups := setGroup d.groups signature g })
  | none =>
      (true, { d with groups := d.groups ++
        [(signature,
          { signature := signature, name := a.name, severity := a.severity,
            count := 1, first_seen := a.timestamp, last_seen := a.timestamp,
            services := [a.service], alerts := [a] })] })

/-- `AlertDeduplicator.get_active_groups`; `datetime.now()` is passed in as `now`. -/
def get_active_groups (now : Int) (d : AlertDeduplicator) : List AlertGroup :=
  (d.groups.map Prod.snd).filter (fun g => now - g.last_seen < ACTIVE_WINDOW)

/-- Driver loop: `for alert in alerts: dedup.process_alert(alert)`, recording
each alert's decision. -/
def processAll : AlertDeduplicator → List Alert → List (Alert × Bool) × AlertDeduplicator
  | d, [] => ([], d)
  | d, a :: rest =>
      let r := process_alert d a
      let t := processAll r.2 rest
      ((a, r.1) :: t.1, t.2)

/-! ### The per-signature step function

`process_alert` reads and writes only the entry at the alert's own signature.
`stepGroup` is that per-entry read-modify-write, extracted as a function of the
looked-up value; `process_alert_eq` below proves the extraction faithful. -/

def freshGroup (sig : String) (a : Alert) : AlertGroup :=
  { signature := sig, name := a.name, severity := a.severity,
    count := 1, first_seen := a.timestamp, last_seen := a.timestamp,
    services := [a.service], alerts := [a] }

def stepGroup (sig : String) (a : Alert) : Option AlertGroup → Bool × AlertGroup
  | some group =>
      if a.timestamp - group.last_seen < SUPPRESSION_WINDOW then
        (false,
          { group with
            count := group.count + 1
            last_seen := a.timestamp
            services := if a.service ∈ group.services then group.services
                        else group.services ++ [a.service]
            alerts := group.alerts ++ [a] })
      else
        (true,
          { group with
            count := group.count + 1
            last_seen := a.timestamp
            alerts := group.alerts ++ [a] })
  | none => (true, freshGroup sig a)

/-! ### Alerts with possibly missing fields (`None` in Python)

A Python caller can construct an `Alert` dataclass with `name=None` or
`severity=None`.  `_get_signature` evaluates
`f"{alert.name}|{alert.severity.value}"`: a `None` name is formatted as the
string `"None"`, while a `None` severity raises `AttributeError` at
`.value` — inside fingerprinting, before any store access. -/

structure OptAlert where
  id : String
  name : Option String
  severity : Option AlertSeverity
  service : String
  message : String
  timestamp : Int
deriving DecidableEq, Repr

inductive PyError where
  | attributeError
deriving DecidableEq, Repr

/-- Python string formatting of a possibly-`None` value. -/
def pyStr : Option String → String
  | none => "None"
  | some s => s

/-- `process_alert` on an alert with possibly missing fields, mirroring
Python's dynamic behaviour: `severity=None` raises inside `_get_signature`
(before the store is read or written); a missing name is formatted as
`"None"` and processing continues normally. -/
def process_alert_opt (d : AlertDeduplicator) (a : OptAlert) :
    Except PyError (Bool × AlertDeduplicator) :=
  match a.severity with
  | none => .error .attributeError
  | some sv =>
      .ok (process_alert d
        { id := a.id, name := pyStr a.name, severity := sv,
          service := a.service, message := a.message, timestamp := a.timestamp })

def isOkE : Except PyError (Bool × AlertDeduplicator) → Bool
  | .ok _ => true
  | .error _ => false

def groupCountE : Except PyError (Bool × AlertDeduplicator) → Nat
  | .ok r => r.2.groups.length
  | .error _ => 0

/-- The projection of a processing run onto one signature slot `s`: fold
`stepGroup` over the same-signature events only, threading that one group.
`processAll` is proved equal to this projection at every signature
(`processAll_slot`), which is what makes cross-signature reordering sound. -/
def runSlot (s : String) : List Alert → Option AlertGroup →
    List (Alert × Bool) × Option AlertGroup
  | [], og => ([], og)
  | a :: rest, og =>
      let r := stepGroup s a og
      let t := runSlot s rest (some r.2)
      ((a, r.1) :: t.1, t.2)

/-! ### Concrete demonstration inputs (used by witnesses and counterexamples) -/

def emptyDedup : AlertDeduplicator := {}

def demoAlert1 : Alert :=
  { id := "alert-0001", name := "HighErrorRate", severity := .critical,
    service := "api", message := "Error rate > 5%", timestamp := 0 }

def demoAlert2 : Alert :=
  { id := "alert-0002", name := "HighErrorRate", severity := .critical,
    service := "auth", message := "Error rate > 5%", timestamp := 60 }

def rolloverAlert : Alert :=
  { id := "alert-0003", name := "HighErrorRate", severity := .critical,
    service := "worker", message := "Error rate > 5%", timestamp := 1000 }

def lateAlert : Alert :=
  { id := "alert-0004", name := "HighCPU", severity := .warning,
    service := "api", message := "CPU > 80%", timestamp := 100 }

def earlyAlert : Alert :=
  { id := "alert-0005", name := "HighCPU", severity := .warning,
    service := "api", message := "CPU > 80%", timestamp := 50 }

def latencyAlert (i : Nat) : Alert :=
  { id := "alert-010" ++ toString i, name := "HighLatency", severity := .warning,
    service := "api", message := "P99 latency > 500ms", timestamp := 10 * (i : Int) }

/-- One `DiskSpaceLow` alert, then five `HighLatency` alerts inside one
suppression window: the store ends with counts `[1, 5]` in insertion order. -/
def c8Alerts : List Alert :=
  { id := "alert-0100", name := "DiskSpaceLow", severity := .warning,
    service := "api", message := "Disk < 10%", timestamp := 0 } ::
  [latencyAlert 0, latencyAlert 1, latencyAlert 2, latencyAlert 3, latencyAlert 4]

def malformedAlert : OptAlert :=
  { id := "m1", name := none, severity := some .critical, service := "api",
    message := "boom", timestamp := 0 }

def noSeverityAlert : OptAlert :=
  { id := "m2", name := some "HighCPU", severity := none, service := "api",
    message := "boom", timestamp := 0 }

/-! ## Log classifier: the message normalizer (`log_classifier.py`)

`_normalize_message` applies five `re.sub` rules in a fixed order.  Each rule
is modelled as a left-to-right scanner with the exact `re.sub` semantics:
leftmost non-overlapping matches, greedy quantifiers, and `\b` word
boundaries evaluated against the original text (tracked by the `pw` flag,
"previous character is a word character").  Messages are lists of characters;
`\d` and `\w` are modelled at their ASCII meaning. -/

def isWordChar (c : Char) : Bool := c.isAlphanum || c == '_'

/-- Lowercase hex as in the UUID pattern `[0-9a-f]`. -/
def isHexLower (c : Char) : Bool := c.isDigit || ('a' ≤ c && c ≤ 'f')

/-- `\b` holds between the scan position and a word-character match head iff
the previous character is not a word character. -/
def noWordAhead : List Char → Bool
  | [] => true
  | c :: _ => !isWordChar c

def dateTok : List Char := ['<', 'D', 'A', 'T', 'E', '>']

def timeTok : List Char := ['<', 'T', 'I', 'M', 'E', '>']

def uuidTok : List Char := ['<', 'U', 'U', 'I', 'D', '>']

def ipTok : List Char := ['<', 'I', 'P', '>']

def numTok : List Char := ['<', 'N', 'U', 'M', '>']

/-- `\d{4}-\d{2}-\d{2}` at the head of the list. -/
def checkDate : List Char → Bool
  | a :: b :: c :: d :: e :: f :: g :: h :: i :: j :: _ =>
      a.isDigit && b.isDigit && c.isDigit && d.isDigit && e == '-' &&
      f.isDigit && g.isDigit && h == '-' && i.isDigit && j.isDigit
  | _ => false

/-- `\d{2}:\d{2}:\d{2}` at the head of the list. -/
def checkTime : List Char → Bool
  | a :: b :: c :: d :: e :: f :: g :: h :: _ =>
      a.isDigit && b.isDigit && c == ':' && d.isDigit && e.isDigit &&
      f == ':' && g.isDigit && h.isDigit
  | _ => false

/-- Consume exactly `n` lowercase-hex characters. -/
def hexChunk : Nat → List Char → Option (List Char)
  | 0, l => some l
  | _ + 1, [] => none
  | n + 1, x :: xs => if isHexLower x then hexChunk n xs else none

/-- Consume a literal `-`. -/
def dashChunk : List Char → Option (List Char)
  | [] => none
  | c :: t => if c = '-' then some t else none

/-- The 36-character UUID body `[0-9a-f]{8}-(...-){3}[0-9a-f]{12}` at the
head of the list. -/
def checkUUIDList (l : List Char) : Bool :=
  ((((((((hexChunk 8 l).bind dashChunk).bind (hexChunk 4)).bind dashChunk).bind
    (hexChunk 4)).bind dashChunk).bind (hexChunk 4)).bind dashChunk).bind
      (hexChunk 12) |>.isSome

/-- Length of the maximal digit run at the head of the list. -/
def digitSpan (l : List Char) : Nat := (l.takeWhile Char.isDigit).length

/-- Consume a literal `.`. -/
def dotChunk : List Char → Option (List Char)
  | [] => none
  | c :: t => if c = '.' then some t else none

/-- Greedy match of the IPv4 body `\d+\.\d+\.\d+\.\d+` starting at the
character `c` followed by `cs`; returns how many characters of `cs` the body
consumes.  Greediness is exact: each `\d+` must be a maximal digit run, since
backtracking a run leaves a digit where `\.` (or the trailing `\b`) is
required. -/
def ipSpan (c : Char) (cs : List Char) : Option Nat :=
  if !c.isDigit then none else
  (dotChunk (cs.drop (digitSpan cs))).bind fun t1 =>
  if digitSpan t1 == 0 then none else
  (dotChunk (t1.drop (digitSpan t1))).bind fun t2 =>
  if digitSpan t2 == 0 then none else
  (dotChunk (t2.drop (digitSpan t2))).bind fun t3 =>
  if digitSpan t3 == 0 then none else
  some (digitSpan cs + 1 + digitSpan t1 + 1 + digitSpan t2 + 1 + digitSpan t3)

/-- `re.sub(r'\d{4}-\d{2}-\d{2}', '<DATE>', ·)`, fuelled: one unit of fuel
per scan step; each step consumes at least one character, so fuel equal to the
list length always suffices (`subDate` below). -/
def subDateF : Nat → List Char → List Char
  | 0, l => l
  | _ + 1, [] => []
  | fuel + 1, c :: cs =>
      if checkDate (c :: cs) then dateTok ++ subDateF fuel (cs.drop 9)
      else c :: subDateF fuel cs

def subDate (l : List Char) : List Char := subDateF l.length l

/-- `re.sub(r'\d{2}:\d{2}:\d{2}', '<TIME>', ·)`, fuelled. -/
def subTimeF : Nat → List Char → List Char
  | 0, l => l
  | _ + 1, [] => []
  | fuel + 1, c :: cs =>
      if checkTime (c :: cs) then timeTok ++ subTimeF fuel (cs.drop 7)
      else c :: subTimeF fuel cs

def subTime (l : List Char) : List Char := subTimeF l.length l

/-- `re.sub` for the UUID pattern, which carries `\b` at both ends; `pw`
records whether the previous character of the original text is a word
character (`false` at the start of the string). -/
def subUUIDF : Nat → Bool → List Char → List Char
  | 0, _, l => l
  | _ + 1, _, [] => []
  | fuel + 1, pw, c :: cs =>
      if !pw && checkUUIDList (c :: cs) && noWordAhead (cs.drop 35) then
        uuidTok ++ subUUIDF fuel true (cs.drop 35)
      else c :: subUUIDF fuel (isWordChar c) cs

def subUUIDAux (pw : Bool) (l : List Char) : List Char := subUUIDF l.length pw l

/-- `re.sub(r'\b\d+\.\d+\.\d+\.\d+\b', '<IP>', ·)`, fuelled. -/
def subIPF : Nat → Bool → List Char → List Char
  | 0, _, l => l
  | _ + 1, _, [] => []
  | fuel + 1, pw, c :: cs =>
      match ipSpan c cs with
      | some k =>
          if !pw && noWordAhead (cs.drop k) then ipTok ++ subIPF fuel true (cs.drop k)
          else c :: subIPF fuel (isWordChar c) cs
      | none => c :: subIPF fuel (isWordChar c) cs

def subIPAux (pw : Bool) (l : List Char) : List Char := subIPF l.length pw l

/-- `re.sub(r'\b\d+\b', '<NUM>', ·)`, fuelled; the body is the maximal digit
run at the scan position. -/
def subNumF : Nat → Bool → List Char → List Char
  | 0, _, l => l
  | _ + 1, _, [] => []
  | fuel + 1, pw, c :: cs =>
      if !pw && c.isDigit && noWordAhead (cs.drop (digitSpan cs)) then
        numTok ++ subNumF fuel true (cs.drop (digitSpan cs))
      else c :: subNumF fuel (isWordChar c) cs

def subNumAux (pw : Bool) (l : List Char) : List Char := subNumF l.length pw l

/-- `LogClassifier._normalize_message`: the five `NORMALIZE_PATTERNS` rules
applied in their fixed source order. -/
def normalizeMessage (m : List Char) : List Char :=
  subNumAux false (subIPAux false (subUUIDAux false (subTime (subDate m))))

/-! ### Match-freeness predicates

`noXScan pw l` says the corresponding `re.sub` scan finds no match at any
position of `l` (with `pw` the word-ness of the character preceding `l`);
it mirrors each scanner's traversal, so `noXScan pw l → subX pw l = l`. -/

def noDateScan : List Char → Bool
  | [] => true
  | c :: cs => !checkDate (c :: cs) && noDateScan cs

def noTimeScan : List Char → Bool
  | [] => true
  | c :: cs => !checkTime (c :: cs) && noTimeScan cs

def noUUIDScan : Bool → List Char → Bool
  | _, [] => true
  | pw, c :: cs =>
      !(!pw && checkUUIDList (c :: cs) && noWordAhead (cs.drop 35)) &&
        noUUIDScan (isWordChar c) cs

def noIPScan : Bool → List Char → Bool
  | _, [] => true
  | pw, c :: cs =>
      (match ipSpan c cs with
       | some k => pw || !noWordAhead (cs.drop k)
       | none => true) && noIPScan (isWordChar c) cs

def noNumScan : Bool → List Char → Bool
  | _, [] => true
  | pw, c :: cs =>
      !(!pw && c.isDigit && noWordAhead (cs.drop (digitSpan cs))) &&
        noNumScan (isWordChar c) cs

/-- Word-ness of the character immediately before the current scan suffix,
given the emitted prefix `pre` and the word-ness `pw` that held before
`pre`. -/
def pwAfter (pw : Bool) (pre : List Char) : Bool :=
  match pre.getLast? with
  | none => pw
  | some c => isWordChar c

/-! ## Log classifier: data model and operations -/

inductive LogLevel where
  | debug
  | info
  | warning
  | error
  | critical
deriving DecidableEq, Repr

structure LogEntry where
  timestamp : Int
  level : LogLevel
  service : String
  message : List Char
  trace_id : Option String := none
deriving DecidableEq, Repr

structure ErrorCluster where
  pattern : List Char
  signature : List Char
  count : Nat
  first_seen : Int
  last_seen : Int
  samples : List LogEntry
  is_noise : Bool := false
deriving DecidableEq, Repr

structure LogClassifier where
  clusters : List (List Char × ErrorCluster) := []
  noise_count : Nat := 0
deriving DecidableEq, Repr

def strChars (s : String) : List Char := s.data

/-- The five `NOISE_PATTERNS` of the source, verbatim (they contain no regex
metacharacters, so `re.search` is substring search). -/
def NOISE_PATTERNS : List (List Char) :=
  [strChars "health check",
   strChars "connection reset by peer",
   strChars "context canceled",
   strChars "request canceled",
   strChars "EOF"]

def startsWith : List Char → List Char → Bool
  | [], _ => true
  | _ :: _, [] => false
  | p :: ps, c :: cs => p == c && startsWith ps cs

/-- `pat` occurs as a contiguous substring. -/
def containsSeq (pat : List Char) : List Char → Bool
  | [] => pat.isEmpty
  | c :: cs => startsWith pat (c :: cs) || containsSeq pat cs

/-- `LogClassifier._is_noise`: the message is lowercased and searched for each
pattern; note the patterns themselves are not lowercased (`"EOF"` stays in
upper case). -/
def isNoise (e : LogEntry) : Bool :=
  NOISE_PATTERNS.any (fun p => containsSeq p (e.message.map Char.toLower))

def lookupCluster (st : List (List Char × ErrorCluster)) (sig : List Char) :
    Option ErrorCluster :=
  match st with
  | [] => none
  | (k, cl) :: rest => if k = sig then some cl else lookupCluster rest sig

def setCluster : List (List Char × ErrorCluster) → List Char → ErrorCluster →
    List (List Char × ErrorCluster)
  | [], _, _ => []
  | (k, cl0) :: rest, sig, cl =>
      if k = sig then (k, cl) :: setCluster rest sig cl
      else (k, cl0) :: setCluster rest sig cl

/-- `LogClassifier.classify`: noise is tallied and dropped; otherwise the
normalized message is the cluster key (md5 truncation again modelled as the
identity); an existing cluster gets `count`/`last_seen` updates and a sample
append while under the cap of 3; a new signature creates a cluster whose
`is_noise` is the dataclass default `False`. -/
def classify (c : LogClassifier) (entry : LogEntry) :
    Option (List Char) × LogClassifier :=
  if isNoise entry then
    (none, { c with noise_count := c.noise_count + 1 })
  else
    let normalized := normalizeMessage entry.message
    let signature := normalized
    match lookupCluster c.clusters signature with
    | some cluster =>
        let cl : ErrorCluster :=
          { cluster with
            count := cluster.count + 1
            last_seen := entry.timestamp
            samples := if cluster.samples.length < 3 then cluster.samples ++ [entry]
                       else cluster.samples }
        (some signature, { c with clusters := setCluster c.clusters signature cl })
    | none =>
        (some signature,
         { c with clusters := c.clusters ++
            [(signature,
              { pattern := normalized, signature := signature, count := 1,
                first_seen := entry.timestamp, last_seen := entry.timestamp,
                samples := [entry] })] })

/-- `LogClassifier.get_actionable_errors` (default `min_count = 2`). -/
def get_actionable_errors (minCount : Nat) (c : LogClassifier) : List ErrorCluster :=
  (c.clusters.map Prod.snd).filter (fun cl => !cl.is_noise && minCount ≤ cl.count)

/-- Driver loop: `for entry in entries: classifier.classify(entry)`. -/
def classifyAll : LogClassifier → List LogEntry →
    List (LogEntry × Option (List Char)) × LogClassifier
  | c, [] => ([], c)
  | c, e :: rest =>
      let r := classify c e
      let t := classifyAll r.2 rest
      ((e, r.1) :: t.1, t.2)

def emptyClassifier : LogClassifier := {}

/-- The non-noise events of a processed batch whose normalized message is
`s`, in processing order — the member events of cluster `s`. -/
def memberEvents (s : List Char) (L : List LogEntry) : List LogEntry :=
  L.filter (fun e => !isNoise e && normalizeMessage e.message == s)

/-- The cluster-store bookkeeping invariant relating a classifier state to
the batch `P` of entries processed so far: a signature is absent exactly when
it has no member events yet, and a present cluster's `count` is its member
count while `samples` is the first three member events in processing order. -/
def ClusterInv (P : List LogEntry) (c : LogClassifier) : Prop :=
  ∀ s, (lookupCluster c.clusters s = none → memberEvents s P = []) ∧
       ∀ cl, lookupCluster c.clusters s = some cl →
         cl.count = (memberEvents s P).length ∧
         cl.samples = (memberEvents s P).take 3

/-! ### Concrete classifier inputs -/

def eofEntry : LogEntry :=
  { timestamp := 0, level := .error, service := "api",
    message := strChars "unexpected EOF" }

def resetEntry : LogEntry :=
  { timestamp := 0, level := .warning, service := "api",
    message := strChars "Connection Reset By Peer detected" }

def dbEntry (i : Nat) : LogEntry :=
  { timestamp := (i : Int), level := .error, service := "api",
    message := strChars ("Database connection failed: timeout after " ++
      toString (100 * i) ++ "ms") }

/-! ## Store lemmas -/

theorem lookupGroup_setGroup_self (st : List (String × AlertGroup)) (sig : String)
    (g : AlertGroup) :
    lookupGroup (setGroup st sig g) sig = ((lookupGroup st sig).map fun _ => g) := by
  induction st with
  | nil => rfl
  | cons kv rest ih =>
      obtain ⟨k, g0⟩ := kv
      by_cases h : k = sig <;> simp [lookupGroup, setGroup, h, ih]

theorem lookupGroup_setGroup_ne (st : List (String × AlertGroup)) (sig k : String)
    (g : AlertGroup) (h : k ≠ sig) :
    lookupGroup (setGroup st sig g) k = lookupGroup st k := by
  induction st with
  | nil => rfl
  | cons kv rest ih =>
      obtain ⟨k0, g0⟩ := kv
      by_cases h0 : k0 = sig
      · subst h0
        simp [lookupGroup, setGroup, Ne.symm h, ih]
      · by_cases h1 : k0 = k
        · subst h1
          simp [lookupGroup, setGroup, h0, ih]
        · simp [lookupGroup, setGroup, h0, h1, ih]

theorem lookupGroup_append_self (st : List (String × AlertGroup)) (sig : String)
    (g : AlertGroup) (h : lookupGroup st sig = none) :
    lookupGroup (st ++ [(sig, g)]) sig = some g := by
  induction st with
  | nil => simp [lookupGroup]
  | cons kv rest ih =>
      obtain ⟨k0, g0⟩ := kv
      by_cases h0 : k0 = sig
      · simp [lookupGroup, h0] at h
      · simp [lookupGroup, h0] at h ⊢
        exact ih h

theorem lookupGroup_append_ne (st : List (String × AlertGroup)) (sig k : String)
    (g : AlertGroup) (h : k ≠ sig) :
    lookupGroup (st ++ [(sig, g)]) k = lookupGroup st k := by
  induction st with
  | nil => simp [lookupGroup, Ne.symm h]
  | cons kv rest ih =>
      obtain ⟨k0, g0⟩ := kv
      by_cases h0 : k0 = k <;> simp [lookupGroup, h0, ih]

theorem process_alert_eq (d : AlertDeduplicator) (a : Alert) :
    process_alert d a =
      (let sig := getSignature a
       let og := lookupGroup d.groups sig
       let r := stepGroup sig a og
       (r.1,
        { groups := match og with
                    | some _ => setGroup d.groups sig r.2
                    | none => d.groups ++ [(sig, r.2)]
          suppressed_count := d.suppressed_count + (if r.1 then 0 else 1) })) := by
  unfold process_alert stepGroup freshGroup
  cases hl : lookupGroup d.groups (getSignature a) with
  | some group =>
      by_cases hw : a.timestamp - group.last_seen < SUPPRESSION_WINDOW <;> simp [hl, hw]
  | none => simp [hl]

theorem lookup_process_self (d : AlertDeduplicator) (a : Alert) :
    lookupGroup (process_alert d a).2.groups (getSignature a) =
      some (stepGroup (getSignature a) a (lookupGroup d.groups (getSignature a))).2 := by
  rw [process_alert_eq]
  cases hl : lookupGroup d.groups (getSignature a) with
  | some group =>
      simp only [hl]
      rw [lookupGroup_setGroup_self, hl]
      rfl
  | none =>
      simp only [hl]
      exact lookupGroup_append_self d.groups (getSignature a) _ hl

theorem lookup_process_ne (d : AlertDeduplicator) (a : Alert) (k : String)
    (h : k ≠ getSignature a) :
    lookupGroup (process_alert d a).2.groups k = lookupGroup d.groups k := by
  rw [process_alert_eq]
  cases hl : lookupGroup d.groups (getSignature a) with
  | some group =>
      simp only [hl]
      exact lookupGroup_setGroup_ne d.groups (getSignature a) k _ h
  | none =>
      simp only [hl]
      exact lookupGroup_append_ne d.groups (getSignature a) k _ h

theorem decision_process (d : AlertDeduplicator) (a : Alert) :
    (process_alert d a).1 =
      (stepGroup (getSignature a) a (lookupGroup d.groups (getSignature a))).1 := by
  rw [process_alert_eq]

theorem suppressed_process (d : AlertDeduplicator) (a : Alert) :
    (process_alert d a).2.suppressed_count =
      d.suppressed_count + (if (process_alert d a).1 then 0 else 1) := by
  rw [process_alert_eq]

theorem step_last_seen (sig : String) (a : Alert) (og : Option AlertGroup) :
    (stepGroup sig a og).2.last_seen = a.timestamp := by
  cases og with
  | none => rfl
  | some g =>
      by_cases hw : a.timestamp - g.last_seen < SUPPRESSION_WINDOW <;> simp [stepGroup, hw]

theorem step_first_seen (sig : String) (a : Alert) (g : AlertGroup) :
    (stepGroup sig a (some g)).2.first_seen = g.first_seen := by
  by_cases hw : a.timestamp - g.last_seen < SUPPRESSION_WINDOW <;> simp [stepGroup, hw]

theorem step_count_some (sig : String) (a : Alert) (g : AlertGroup) :
    (stepGroup sig a (some g)).2.count = g.count + 1 := by
  by_cases hw : a.timestamp - g.last_seen < SUPPRESSION_WINDOW <;> simp [stepGroup, hw]

theorem step_suppress (sig : String) (a : Alert) (g : AlertGroup)
    (hw : a.timestamp - g.last_seen < SUPPRESSION_WINDOW) :
    (stepGroup sig a (some g)).1 = false := by
  simp [stepGroup, hw]

theorem step_emit (sig : String) (a : Alert) (g : AlertGroup)
    (hw : ¬ a.timestamp - g.last_seen < SUPPRESSION_WINDOW) :
    (stepGroup sig a (some g)).1 = true := by
  simp [stepGroup, hw]

/-- C1: for two same-signature alerts processed in sequence, the first leaves
the group's `last_seen` at its own timestamp; if the second arrives strictly
within the 5-minute suppression window it is suppressed (`process_alert`
returns `false`), if it arrives strictly after the window it is emitted
(returns `true`); in both cases the group's count is incremented and
`last_seen` becomes the second alert's timestamp. -/
theorem claim_C1_suppression_window_boundary (d : AlertDeduplicator) (a1 a2 : Alert)
    (hsig : getSignature a1 = getSignature a2) :
    (a2.timestamp - a1.timestamp < SUPPRESSION_WINDOW →
        (process_alert (process_alert d a1).2 a2).1 = false) ∧
    (a2.timestamp - a1.timestamp > SUPPRESSION_WINDOW →
        (process_alert (process_alert d a1).2 a2).1 = true) ∧
    ∃ g1 g2,
      lookupGroup (process_alert d a1).2.groups (getSignature a2) = some g1 ∧
      lookupGroup (process_alert (process_alert d a1).2 a2).2.groups (getSignature a2)
        = some g2 ∧
      g1.last_seen = a1.timestamp ∧ g2.count = g1.count + 1 ∧
      g2.last_seen = a2.timestamp := by
  have h1 : lookupGroup (process_alert d a1).2.groups (getSignature a2) =
      some (stepGroup (getSignature a1) a1 (lookupGroup d.groups (getSignature a1))).2 := by
    rw [← hsig]
    exact lookup_process_self d a1
  have hls : (stepGroup (getSignature a1) a1
      (lookupGroup d.groups (getSignature a1))).2.last_seen = a1.timestamp :=
    step_last_seen _ _ _
  have hd := decision_process (process_alert d a1).2 a2
  rw [h1] at hd
  have h2 := lookup_process_self (process_alert d a1).2 a2
  rw [h1] at h2
  refine ⟨?_, ?_, _, _, h1, h2, hls, ?_, ?_⟩
  · intro hlt
    rw [hd]
    exact step_suppress _ _ _ (by rw [hls]; exact hlt)
  · intro hgt
    rw [hd]
    exact step_emit _ _ _ (by rw [hls]; omega)
  · exact step_count_some _ _ _
  · exact step_last_seen _ _ _

/-- Witness for C1: `HighErrorRate`/critical alerts at `t = 0` and `t = 60`
(inside the 300-second window); the second is suppressed. -/
theorem claim_C1_witness :
    getSignature demoAlert1 = getSignature demoAlert2 ∧
    demoAlert2.timestamp - demoAlert1.timestamp < SUPPRESSION_WINDOW ∧
    (process_alert (process_alert emptyDedup demoAlert1).2 demoAlert2).1 = false :=
  ⟨by decide, by decide,
    (claim_C1_suppression_window_boundary emptyDedup demoAlert1 demoAlert2 (by decide)).1
      (by decide)⟩

/-- C6 counterexample: a window-rollover alert from a new service
(`rolloverAlert.service = "worker"`, arriving 1000 s after the group's
`last_seen`) is emitted, but the group's `services` list stays `["api"]`:
the rollover branch of `process_alert` does not add the event's source,
contrary to the claim's "same field updates as the suppress case". -/
theorem claim_C6_counterexample :
    (process_alert (process_alert emptyDedup demoAlert1).2 rolloverAlert).1 = true ∧
    ((lookupGroup (process_alert (process_alert emptyDedup demoAlert1).2 rolloverAlert).2.groups
        (getSignature rolloverAlert)).map AlertGroup.services) = some ["api"] ∧
    rolloverAlert.service = "worker" := by
  refine ⟨by decide, ?_, by decide⟩
  decide

/-- C6 amended: when a same-signature alert arrives once the suppression
window has elapsed, `process_alert` returns Emit (`true`), increments `count`,
sets `last_seen` to the event's timestamp and appends the alert to the group's
alert list — but, unlike the suppress branch, it leaves the `services` set
unchanged; the deduplicator never caps the alert list and never changes a
group's severity (severity is part of the grouping key). -/
theorem claim_C6_rollover_amended (d : AlertDeduplicator) (a : Alert) (g : AlertGroup)
    (h : lookupGroup d.groups (getSignature a) = some g)
    (hw : ¬ a.timestamp - g.last_seen < SUPPRESSION_WINDOW) :
    (process_alert d a).1 = true ∧
    lookupGroup (process_alert d a).2.groups (getSignature a) =
      some { g with count := g.count + 1, last_seen := a.timestamp,
                    alerts := g.alerts ++ [a] } := by
  constructor
  · rw [decision_process, h]
    exact step_emit _ _ _ hw
  · rw [lookup_process_self, h]
    simp [stepGroup, hw]

/-- Witness for the amended C6: concrete rollover run. -/
theorem claim_C6_amended_witness :
    (process_alert (process_alert emptyDedup demoAlert1).2 rolloverAlert).1 = true :=
  (claim_C6_rollover_amended (process_alert emptyDedup demoAlert1).2 rolloverAlert
      (freshGroup (getSignature demoAlert1) demoAlert1) (by decide) (by decide)).1

/-- C8 counterexample: after one `DiskSpaceLow` alert and five `HighLatency`
alerts, both groups are active at `now = 100`, and `get_active_groups`
returns counts `[1, 5]` — dict insertion order, not count-descending order
(the report layer sorts separately). -/
theorem claim_C8_counterexample :
    ((get_active_groups 100 (processAll emptyDedup c8Alerts).2).map AlertGroup.count)
      = [1, 5] ∧
    ¬ List.Pairwise (fun x y => x ≥ y)
        ((get_active_groups 100 (processAll emptyDedup c8Alerts).2).map AlertGroup.count) := by
  constructor
  · decide
  · have h : ((get_active_groups 100 (processAll emptyDedup c8Alerts).2).map
        AlertGroup.count) = [1, 5] := by decide
    rw [h]
    decide

/-- C8 amended: `get_active_groups` returns exactly the groups whose
`last_seen` is within the 30-minute activity window of `now`, preserving the
store's insertion order (it is a filter of `groups.values()`; callers sort by
count for display separately). -/
theorem claim_C8_active_groups_amended (now : Int) (d : AlertDeduplicator) :
    (∀ g, g ∈ get_active_groups now d ↔
      (g ∈ d.groups.map Prod.snd ∧ now - g.last_seen < ACTIVE_WINDOW)) ∧
    (get_active_groups now d).Sublist (d.groups.map Prod.snd) := by
  constructor
  · intro g
    simp [get_active_groups, List.mem_filter]
  · exact List.filter_sublist _

/-- Witness for the amended C8: concrete query on the two-group store. -/
theorem claim_C8_amended_witness :
    (get_active_groups 100 (processAll emptyDedup c8Alerts).2).Sublist
      ((processAll emptyDedup c8Alerts).2.groups.map Prod.snd) :=
  (claim_C8_active_groups_amended 100 (processAll emptyDedup c8Alerts).2).2

/-- C3 counterexample: processing `HighCPU` at `t = 100` and then the same
signature at `t = 50` (out of chronological order) leaves the group with
`first_seen = 100` and `last_seen = 50`: the naive `last_seen` overwrite
breaks `lastSeen ≥ firstSeen` for out-of-order input. -/
theorem claim_C3_counterexample :
    ((lookupGroup (processAll emptyDedup [lateAlert, earlyAlert]).2.groups
        (getSignature lateAlert)).map
      (fun g => (g.first_seen, g.last_seen))) = some (100, 50) ∧
    ¬ (100 : Int) ≤ 50 := by
  constructor
  · decide
  · decide

/-- Invariant step: processing one alert whose timestamp dominates every
stored `last_seen` preserves `first_seen ≤ last_seen` and bounds all
`last_seen` by the new timestamp. -/
theorem c3_step (d : AlertDeduplicator) (a : Alert) (c : Int)
    (hca : c ≤ a.timestamp)
    (hinv : ∀ sig g, lookupGroup d.groups sig = some g →
      g.first_seen ≤ g.last_seen ∧ g.last_seen ≤ c) :
    ∀ sig g, lookupGroup (process_alert d a).2.groups sig = some g →
      g.first_seen ≤ g.last_seen ∧ g.last_seen ≤ a.timestamp := by
  intro sig g hg
  by_cases hs : sig = getSignature a
  · subst hs
    rw [lookup_process_self] at hg
    cases hl : lookupGroup d.groups (getSignature a) with
    | some g0 =>
        rw [hl] at hg
        obtain ⟨h1, h2⟩ := hinv _ _ hl
        have hfst : g.first_seen = g0.first_seen := by
          rw [← Option.some_inj.mp hg]
          exact step_first_seen _ _ _
        have hlst : g.last_seen = a.timestamp := by
          rw [← Option.some_inj.mp hg]
          exact step_last_seen _ _ _
        rw [hfst, hlst]
        omega
    | none =>
        rw [hl] at hg
        have : g = freshGroup (getSignature a) a := by
          have := Option.some_inj.mp hg
          rw [← this]
          rfl
        rw [this]
        exact ⟨le_refl _, le_refl _⟩
  · rw [lookup_process_ne _ _ _ hs] at hg
    obtain ⟨h1, h2⟩ := hinv _ _ hg
    exact ⟨h1, le_trans h2 hca⟩

/-- Folding the step invariant over a chronologically sorted batch. -/
theorem c3_fold (la : List Alert) :
    ∀ (d : AlertDeduplicator) (c : Int),
    (∀ a ∈ la, c ≤ a.timestamp) →
    la.Pairwise (fun x y => x.timestamp ≤ y.timestamp) →
    (∀ sig g, lookupGroup d.groups sig = some g →
      g.first_seen ≤ g.last_seen ∧ g.last_seen ≤ c) →
    ∀ sig g, lookupGroup (processAll d la).2.groups sig = some g →
      g.first_seen ≤ g.last_seen := by
  induction la with
  | nil =>
      intro d c _ _ hinv sig g hg
      exact (hinv sig g hg).1
  | cons a rest ih =>
      intro d c hle hsort hinv sig g hg
      have hstep := c3_step d a c (hle a (by simp)) hinv
      have hrest : ∀ x ∈ rest, a.timestamp ≤ x.timestamp := by
        intro x hx
        exact (List.pairwise_cons.mp hsort).1 x hx
      exact ih (process_alert d a).2 a.timestamp hrest
        (List.pairwise_cons.mp hsort).2 hstep sig g hg

/-- C3 amended: the invariant `first_seen ≤ last_seen` holds for every group
in the store provided the alerts are processed in non-decreasing timestamp
order; with out-of-order arrival the naive `last_seen := event timestamp`
overwrite can drive `last_seen` below `first_seen`
(see `claim_C3_counterexample`). -/
theorem claim_C3_first_last_invariant (la : List Alert)
    (hsort : la.Pairwise (fun x y => x.timestamp ≤ y.timestamp)) :
    ∀ sig g, lookupGroup (processAll emptyDedup la).2.groups sig = some g →
      g.first_seen ≤ g.last_seen := by
  cases la with
  | nil =>
      intro sig g hg
      cases hg
  | cons a rest =>
      refine c3_fold (a :: rest) emptyDedup a.timestamp ?_ hsort ?_
      · intro x hx
        rcases List.mem_cons.mp hx with h | h
        · rw [h]
        · exact (List.pairwise_cons.mp hsort).1 x h
      · intro sig g hg
        cases hg

/-- Witness for the amended C3: an in-order two-alert run satisfies the
invariant at its group. -/
theorem claim_C3_witness :
    (freshGroup (getSignature demoAlert1) demoAlert1).first_seen ≤
      (freshGroup (getSignature demoAlert1) demoAlert1).last_seen ∧
    [demoAlert1, demoAlert2].Pairwise (fun x y => x.timestamp ≤ y.timestamp) := by
  constructor
  · have h := claim_C3_first_last_invariant [demoAlert1]
      (by simp) (getSignature demoAlert1)
      (freshGroup (getSignature demoAlert1) demoAlert1) (by decide)
    exact h
  · decide

/-- C9 counterexample: an alert with a missing (`None`) name — a malformed
event per the claim — is not rejected: `process_alert` succeeds, returns
Emit, and the store gains a group keyed by the literal fingerprint
`"None|critical"`.  No validation precedes fingerprinting. -/
theorem claim_C9_counterexample :
    isOkE (process_alert_opt emptyDedup malformedAlert) = true ∧
    groupCountE (process_alert_opt emptyDedup malformedAlert) = 1 ∧
    (match process_alert_opt emptyDedup malformedAlert with
     | .ok r => (lookupGroup r.2.groups "None|critical").isSome
     | .error _ => false) = true := by
  refine ⟨by decide, by decide, by decide⟩

/-- C9 amended: the code has no malformed-event validation.  An alert whose
`severity` is missing raises `AttributeError` inside `_get_signature` (during
fingerprinting, not before it), and since the raise precedes every store
access the group store is unchanged on that failure; an alert with a missing
`name` is not rejected at all — it is fingerprinted with the literal string
`"None"` and processed normally. -/
theorem claim_C9_malformed_amended (d : AlertDeduplicator) (a : OptAlert) :
    ((∃ e, process_alert_opt d a = .error e) ↔ a.severity = none) ∧
    (∀ sv, a.severity = some sv →
      process_alert_opt d a =
        .ok (process_alert d
          { id := a.id, name := pyStr a.name, severity := sv,
            service := a.service, message := a.message, timestamp := a.timestamp })) := by
  constructor
  · constructor
    · rintro ⟨e, he⟩
      cases hs : a.severity with
      | none => rfl
      | some sv =>
          rw [process_alert_opt, hs] at he
          cases he
    · intro hs
      exact ⟨.attributeError, by rw [process_alert_opt, hs]⟩
  · intro sv hs
    rw [process_alert_opt, hs]

/-- Witness for the amended C9: the `severity=None` alert errors, the
`name=None` alert succeeds. -/
theorem claim_C9_witness :
    noSeverityAlert.severity = none ∧
    (∃ e, process_alert_opt emptyDedup noSeverityAlert = .error e) ∧
    malformedAlert.severity = some .critical :=
  ⟨rfl,
    ((claim_C9_malformed_amended emptyDedup noSeverityAlert).1).mpr rfl,
    rfl⟩

/-! ## Cluster store lemmas (log classifier) -/

theorem lookupCluster_setCluster_self (st : List (List Char × ErrorCluster))
    (sig : List Char) (cl : ErrorCluster) :
    lookupCluster (setCluster st sig cl) sig = ((lookupCluster st sig).map fun _ => cl) := by
  induction st with
  | nil => rfl
  | cons kv rest ih =>
      obtain ⟨k, c0⟩ := kv
      by_cases h : k = sig <;> simp [lookupCluster, setCluster, h, ih]

theorem lookupCluster_setCluster_ne (st : List (List Char × ErrorCluster))
    (sig k : List Char) (cl : ErrorCluster) (h : k ≠ sig) :
    lookupCluster (setCluster st sig cl) k = lookupCluster st k := by
  induction st with
  | nil => rfl
  | cons kv rest ih =>
      obtain ⟨k0, c0⟩ := kv
      by_cases h0 : k0 = sig
      · subst h0
        simp [lookupCluster, setCluster, Ne.symm h, ih]
      · by_cases h1 : k0 = k
        · subst h1
          simp [lookupCluster, setCluster, h0, ih]
        · simp [lookupCluster, setCluster, h0, h1, ih]

theorem lookupCluster_append_self (st : List (List Char × ErrorCluster))
    (sig : List Char) (cl : ErrorCluster) (h : lookupCluster st sig = none) :
    lookupCluster (st ++ [(sig, cl)]) sig = some cl := by
  induction st with
  | nil => simp [lookupCluster]
  | cons kv rest ih =>
      obtain ⟨k0, c0⟩ := kv
      by_cases h0 : k0 = sig
      · simp [lookupCluster, h0] at h
      · simp [lookupCluster, h0] at h ⊢
        exact ih h

theorem lookupCluster_append_ne (st : List (List Char × ErrorCluster))
    (sig k : List Char) (cl : ErrorCluster) (h : k ≠ sig) :
    lookupCluster (st ++ [(sig, cl)]) k = lookupCluster st k := by
  induction st with
  | nil => simp [lookupCluster, Ne.symm h]
  | cons kv rest ih =>
      obtain ⟨k0, c0⟩ := kv
      by_cases h0 : k0 = k <;> simp [lookupCluster, h0, ih]

theorem setCluster_mem (st : List (List Char × ErrorCluster)) (sig : List Char)
    (cl : ErrorCluster) (p : List Char × ErrorCluster) (hp : p ∈ setCluster st sig cl) :
    p.2 = cl ∨ p ∈ st := by
  induction st with
  | nil => cases hp
  | cons kv rest ih =>
      obtain ⟨k0, c0⟩ := kv
      by_cases h0 : k0 = sig <;> simp [setCluster, h0] at hp <;>
        rcases hp with h | h
      · left
        rw [h]
      · rcases ih h with h1 | h1
        · exact Or.inl h1
        · exact Or.inr (List.mem_cons_of_mem _ h1)
      · right
        rw [h]
        exact List.mem_cons_self _ _
      · rcases ih h with h1 | h1
        · exact Or.inl h1
        · exact Or.inr (List.mem_cons_of_mem _ h1)

/-! ## C4: the noise predicate and the dead `"EOF"` pattern -/

/-- C4 (code bug): `_is_noise` lowercases the message but not the patterns,
so the `"EOF"` entry of `NOISE_PATTERNS` can never match: a message
containing `EOF` is not treated as noise — `classify` creates a cluster for
it and leaves the noise tally at zero, contrary to both the claim and the
source's own noise-pattern list.  The other patterns, being lower case, do
match case-insensitively (witnessed here by `"Connection Reset By Peer"`). -/
theorem claim_C4_noise_eof_bug :
    isNoise eofEntry = false ∧
    (classify emptyClassifier eofEntry).2.clusters.length = 1 ∧
    (classify emptyClassifier eofEntry).2.noise_count = 0 ∧
    isNoise resetEntry = true ∧
    (classify emptyClassifier resetEntry).2.clusters = [] ∧
    (classify emptyClassifier resetEntry).2.noise_count = 1 := by
  refine ⟨by decide, by decide, by decide, by decide, by decide, by decide⟩

theorem lookupCluster_mem (st : List (List Char × ErrorCluster)) (sig : List Char)
    (cl : ErrorCluster) (h : lookupCluster st sig = some cl) : (sig, cl) ∈ st := by
  induction st with
  | nil => cases h
  | cons kv rest ih =>
      obtain ⟨k0, c0⟩ := kv
      by_cases h0 : k0 = sig
      · subst h0
        simp [lookupCluster] at h
        simp [h]
      · simp [lookupCluster, h0] at h
        exact List.mem_cons_of_mem _ (ih h)

/-- Every cluster stored by `classify` has `is_noise = false`: the
constructor uses the dataclass default and no code path ever writes the
field. -/
theorem classify_noise_flag (c : LogClassifier) (e : LogEntry)
    (hinv : ∀ p ∈ c.clusters, p.2.is_noise = false) :
    ∀ p ∈ (classify c e).2.clusters, p.2.is_noise = false := by
  intro p hp
  by_cases hn : isNoise e
  · simp only [classify, hn, if_pos] at hp
    exact hinv p hp
  · simp only [classify, hn, if_neg, Bool.false_eq_true, not_false_eq_true] at hp
    cases hl : lookupCluster c.clusters (normalizeMessage e.message) with
    | some cluster =>
        rw [hl] at hp
        simp only at hp
        rcases setCluster_mem _ _ _ _ hp with h | h
        · rw [h]
          exact hinv _ (lookupCluster_mem _ _ _ hl)
        · exact hinv p h
    | none =>
        rw [hl] at hp
        simp only at hp
        rcases List.mem_append.mp hp with h | h
        · exact hinv p h
        · simp at h
          simp [h]

theorem classifyAll_noise_flag (L : List LogEntry) :
    ∀ (c : LogClassifier), (∀ p ∈ c.clusters, p.2.is_noise = false) →
    ∀ p ∈ (classifyAll c L).2.clusters, p.2.is_noise = false := by
  induction L with
  | nil => intro c hinv; exact hinv
  | cons e rest ih =>
      intro c hinv
      exact ih _ (classify_noise_flag c e hinv)

/-- C10: after any run of the classifier from an empty store, every stored
`ErrorCluster` has `is_noise = false` (classify only creates clusters for
non-noise entries and never writes the flag), so `get_actionable_errors`
returns exactly the clusters with `count ≥ min_count` — its `is_noise`
filter clause is vacuous. -/
theorem claim_C10_actionable_filter_vacuous (L : List LogEntry) (minCount : Nat) :
    (∀ cl ∈ ((classifyAll emptyClassifier L).2.clusters.map Prod.snd),
        cl.is_noise = false) ∧
    get_actionable_errors minCount (classifyAll emptyClassifier L).2 =
      ((classifyAll emptyClassifier L).2.clusters.map Prod.snd).filter
        (fun cl => minCount ≤ cl.count) := by
  have hflag : ∀ p ∈ (classifyAll emptyClassifier L).2.clusters, p.2.is_noise = false :=
    classifyAll_noise_flag L emptyClassifier (by intro p hp; cases hp)
  constructor
  · intro cl hcl
    rcases List.mem_map.mp hcl with ⟨p, hp, hpe⟩
    rw [← hpe]
    exact hflag p hp
  · unfold get_actionable_errors
    apply List.filter_congr
    intro cl hcl
    rcases List.mem_map.mp hcl with ⟨p, hp, hpe⟩
    rw [← hpe, hflag p hp]
    simp

/-- Witness for C10: a concrete three-entry run (two recurring DB errors and
one one-off) where `get_actionable_errors 2` keeps exactly the recurring
cluster. -/
theorem claim_C10_witness :
    (∀ cl ∈ ((classifyAll emptyClassifier [dbEntry 1, dbEntry 2, eofEntry]).2.clusters.map
        Prod.snd), cl.is_noise = false) ∧
    get_actionable_errors 2 (classifyAll emptyClassifier [dbEntry 1, dbEntry 2, eofEntry]).2 =
      ((classifyAll emptyClassifier [dbEntry 1, dbEntry 2, eofEntry]).2.clusters.map
        Prod.snd).filter (fun cl => 2 ≤ cl.count) :=
  claim_C10_actionable_filter_vacuous [dbEntry 1, dbEntry 2, eofEntry] 2

/-! ## C7: the 3-sample cap invariant -/

theorem memberEvents_append (s : List Char) (P : List LogEntry) (e : LogEntry) :
    memberEvents s (P ++ [e]) =
      memberEvents s P ++
        (if !isNoise e && (normalizeMessage e.message == s) then [e] else []) := by
  unfold memberEvents
  rw [List.filter_append]
  cases h : (!isNoise e && (normalizeMessage e.message == s)) with
  | true => simp [List.filter, h]
  | false => simp [List.filter, h]

theorem classify_clusters_noise (c : LogClassifier) (e : LogEntry)
    (hn : isNoise e = true) : (classify c e).2.clusters = c.clusters := by
  simp [classify, hn]

theorem classify_clusters_known (c : LogClassifier) (e : LogEntry)
    (cluster : ErrorCluster) (hn : isNoise e = false)
    (hl : lookupCluster c.clusters (normalizeMessage e.message) = some cluster) :
    (classify c e).2.clusters =
      setCluster c.clusters (normalizeMessage e.message)
        { cluster with
          count := cluster.count + 1
          last_seen := e.timestamp
          samples := if cluster.samples.length < 3 then cluster.samples ++ [e]
                     else cluster.samples } := by
  simp [classify, hn, hl]

theorem classify_clusters_new (c : LogClassifier) (e : LogEntry)
    (hn : isNoise e = false)
    (hl : lookupCluster c.clusters (normalizeMessage e.message) = none) :
    (classify c e).2.clusters =
      c.clusters ++
        [(normalizeMessage e.message,
          { pattern := normalizeMessage e.message,
            signature := normalizeMessage e.message, count := 1,
            first_seen := e.timestamp, last_seen := e.timestamp,
            samples := [e] })] := by
  simp [classify, hn, hl]

theorem classify_inv_step (P : List LogEntry) (c : LogClassifier) (e : LogEntry)
    (hinv : ClusterInv P c) : ClusterInv (P ++ [e]) (classify c e).2 := by
  intro s
  by_cases hn : isNoise e
  · have hm : memberEvents s (P ++ [e]) = memberEvents s P := by
      rw [memberEvents_append]
      simp [hn]
    rw [classify_clusters_noise c e hn, hm]
    exact hinv s
  · rw [Bool.not_eq_true] at hn
    by_cases hs : s = normalizeMessage e.message
    · subst hs
      have hm : memberEvents (normalizeMessage e.message) (P ++ [e]) =
          memberEvents (normalizeMessage e.message) P ++ [e] := by
        rw [memberEvents_append]
        simp [hn]
      cases hl : lookupCluster c.clusters (normalizeMessage e.message) with
      | some cluster =>
          rw [classify_clusters_known c e cluster hn hl]
          constructor
          · intro h0
            rw [lookupCluster_setCluster_self, hl] at h0
            cases h0
          · intro cl hcl
            rw [lookupCluster_setCluster_self, hl] at hcl
            simp only [Option.map_some'] at hcl
            obtain ⟨hcnt, hsam⟩ := (hinv _).2 cluster hl
            rw [← Option.some_inj.mp hcl, hm]
            constructor
            · simp [hcnt]
            · have hlen : cluster.samples.length =
                  min 3 (memberEvents (normalizeMessage e.message) P).length := by
                rw [hsam, List.length_take]
              by_cases h3 : cluster.samples.length < 3
              · have hmle : (memberEvents (normalizeMessage e.message) P).length < 3 := by
                  omega
                simp only [h3, if_pos]
                rw [List.take_of_length_le (by simp; omega), hsam,
                  List.take_of_length_le (by omega)]
              · have hmge : 3 ≤ (memberEvents (normalizeMessage e.message) P).length := by
                  omega
                simp only [h3, if_neg, not_false_eq_true]
                rw [List.take_append_of_le_length hmge, hsam]
      | none =>
          rw [classify_clusters_new c e hn hl]
          have hempty : memberEvents (normalizeMessage e.message) P = [] :=
            (hinv _).1 hl
          constructor
          · intro h0
            rw [lookupCluster_append_self _ _ _ hl] at h0
            cases h0
          · intro cl hcl
            rw [lookupCluster_append_self _ _ _ hl] at hcl
            rw [← Option.some_inj.mp hcl, hm, hempty]
            exact ⟨rfl, rfl⟩
    · have hm : memberEvents s (P ++ [e]) = memberEvents s P := by
        rw [memberEvents_append]
        have hb : (normalizeMessage e.message == s) = false :=
          beq_eq_false_iff_ne.mpr (Ne.symm hs)
        simp [hb]
      rw [hm]
      cases hl : lookupCluster c.clusters (normalizeMessage e.message) with
      | some cluster =>
          rw [classify_clusters_known c e cluster hn hl]
          rw [show lookupCluster (setCluster c.clusters (normalizeMessage e.message) _) s
              = lookupCluster c.clusters s from
            lookupCluster_setCluster_ne _ _ _ _ hs]
          exact hinv s
      | none =>
          rw [classify_clusters_new c e hn hl]
          rw [lookupCluster_append_ne _ _ _ _ hs]
          exact hinv s

theorem classifyAll_inv (L : List LogEntry) :
    ∀ (P : List LogEntry) (c : LogClassifier), ClusterInv P c →
      ClusterInv (P ++ L) (classifyAll c L).2 := by
  induction L with
  | nil =>
      intro P c hinv
      simpa using hinv
  | cons e rest ih =>
      intro P c hinv
      have h1 := classify_inv_step P c e hinv
      have h2 := ih (P ++ [e]) (classify c e).2 h1
      rw [List.append_assoc] at h2
      simpa using h2

/-- C7: after classifying any batch from an empty store, every cluster's
`samples` list is exactly the first three of its member events in processing
order — hence it holds at most 3 entries, the oldest-processed members are
the ones retained, and `count` (the number of member events) is at least
`samples.length`. -/
theorem claim_C7_sample_cap (L : List LogEntry) (s : List Char) (cl : ErrorCluster)
    (h : lookupCluster (classifyAll emptyClassifier L).2.clusters s = some cl) :
    cl.samples.length ≤ 3 ∧ cl.samples.length ≤ cl.count ∧
    cl.samples = (memberEvents s L).take 3 ∧
    cl.count = (memberEvents s L).length := by
  have hinv : ClusterInv L (classifyAll emptyClassifier L).2 := by
    have h0 : ClusterInv [] emptyClassifier := by
      intro s
      exact ⟨fun _ => rfl, fun cl hcl => by cases hcl⟩
    simpa using classifyAll_inv L [] emptyClassifier h0
  obtain ⟨hcnt, hsam⟩ := (hinv s).2 cl h
  refine ⟨?_, ?_, hsam, hcnt⟩
  · rw [hsam, List.length_take]
    omega
  · rw [hsam, List.length_take, hcnt]
    omega

/-- Witness for C7: four copies of the same error message; the cluster keeps
the first three as samples and counts all four. -/
theorem claim_C7_witness :
    (lookupCluster (classifyAll emptyClassifier
        [dbEntry 1, dbEntry 2, dbEntry 3, dbEntry 4]).2.clusters
      (normalizeMessage (dbEntry 1).message)).isSome = true := by
  cases hl : lookupCluster (classifyAll emptyClassifier
      [dbEntry 1, dbEntry 2, dbEntry 3, dbEntry 4]).2.clusters
      (normalizeMessage (dbEntry 1).message) with
  | some cl =>
      have := claim_C7_sample_cap [dbEntry 1, dbEntry 2, dbEntry 3, dbEntry 4]
        (normalizeMessage (dbEntry 1).message) cl hl
      rfl
  | none =>
      exact absurd hl (by decide)

/-! ## C5: processing order across signatures is irrelevant -/

/-- `processAll` projected onto one signature: the final entry at `s` and the
decisions handed to same-signature events depend only on the subsequence of
events with signature `s` and the initial entry at `s`. -/
theorem processAll_slot (L : List Alert) :
    ∀ (d : AlertDeduplicator) (s : String),
      lookupGroup (processAll d L).2.groups s =
        (runSlot s (L.filter (fun e => getSignature e == s)) (lookupGroup d.groups s)).2 ∧
      (processAll d L).1.filter (fun p => getSignature p.1 == s) =
        (runSlot s (L.filter (fun e => getSignature e == s)) (lookupGroup d.groups s)).1 := by
  induction L with
  | nil =>
      intro d s
      exact ⟨rfl, rfl⟩
  | cons a rest ih =>
      intro d s
      have hd1 : (processAll d (a :: rest)).2 = (processAll (process_alert d a).2 rest).2 := rfl
      have hdec : (processAll d (a :: rest)).1 =
          (a, (process_alert d a).1) :: (processAll (process_alert d a).2 rest).1 := rfl
      by_cases hs : getSignature a = s
      · have hb : (getSignature a == s) = true := beq_iff_eq.mpr hs
        have hlf : lookupGroup (process_alert d a).2.groups s =
            some (stepGroup s a (lookupGroup d.groups s)).2 := by
          rw [← hs]
          exact lookup_process_self d a
        have hdp : (process_alert d a).1 = (stepGroup s a (lookupGroup d.groups s)).1 := by
          rw [← hs]
          exact decision_process d a
        have hfe : (a :: rest).filter (fun e => getSignature e == s) =
            a :: rest.filter (fun e => getSignature e == s) := by
          simp [List.filter, hb]
        constructor
        · rw [hd1, (ih (process_alert d a).2 s).1, hlf, hfe]
          rfl
        · rw [hdec, hfe]
          have hcons : ((a, (process_alert d a).1) ::
              (processAll (process_alert d a).2 rest).1).filter
                (fun p => getSignature p.1 == s) =
              (a, (process_alert d a).1) ::
                ((processAll (process_alert d a).2 rest).1.filter
                  (fun p => getSignature p.1 == s)) := by
            simp [List.filter, hb]
          rw [hcons, (ih (process_alert d a).2 s).2, hlf, hdp]
          rfl
      · have hb : (getSignature a == s) = false := beq_eq_false_iff_ne.mpr hs
        have hlf : lookupGroup (process_alert d a).2.groups s = lookupGroup d.groups s :=
          lookup_process_ne d a s (fun h => hs h.symm)
        have hfe : (a :: rest).filter (fun e => getSignature e == s) =
            rest.filter (fun e => getSignature e == s) := by
          simp [List.filter, hb]
        constructor
        · rw [hd1, (ih (process_alert d a).2 s).1, hlf, hfe]
        · rw [hdec, hfe]
          have hcons : ((a, (process_alert d a).1) ::
              (processAll (process_alert d a).2 rest).1).filter
                (fun p => getSignature p.1 == s) =
              (processAll (process_alert d a).2 rest).1.filter
                (fun p => getSignature p.1 == s) := by
            simp [List.filter, hb]
          rw [hcons, (ih (process_alert d a).2 s).2, hlf]

/-- The final suppression tally is the initial tally plus the number of
Suppress decisions handed out. -/
theorem processAll_suppressed (L : List Alert) :
    ∀ d : AlertDeduplicator, (processAll d L).2.suppressed_count =
      d.suppressed_count + (processAll d L).1.countP (fun p => !p.2) := by
  induction L with
  | nil =>
      intro d
      simp [processAll]
  | cons a rest ih =>
      intro d
      have h1 := suppressed_process d a
      have h2 := ih (process_alert d a).2
      have hcp : (processAll d (a :: rest)).1.countP (fun p => !p.2) =
          (processAll (process_alert d a).2 rest).1.countP (fun p => !p.2) +
            (if (process_alert d a).1 then 0 else 1) := by
        show List.countP _ ((a, (process_alert d a).1) :: _) = _
        rw [List.countP_cons]
        cases (process_alert d a).1 <;> simp
      have hfinal : (processAll d (a :: rest)).2 = (processAll (process_alert d a).2 rest).2 :=
        rfl
      rw [hfinal, h2, h1, hcp]
      omega

/-- C5: if two event batches contain, for every signature, the same
same-signature subsequence (so they are permutations of each other that
preserve relative order within each signature), then processing them from the
same initial state yields the same group-store mapping, the same suppression
tally, and hands every individual event the same decision. -/
theorem claim_C5_cross_signature_order (A B : List Alert) (d : AlertDeduplicator)
    (hfilt : ∀ s, A.filter (fun e => getSignature e == s) =
      B.filter (fun e => getSignature e == s)) :
    (∀ s, lookupGroup (processAll d A).2.groups s =
      lookupGroup (processAll d B).2.groups s) ∧
    (∀ s, (processAll d A).1.filter (fun p => getSignature p.1 == s) =
      (processAll d B).1.filter (fun p => getSignature p.1 == s)) ∧
    (processAll d A).2.suppressed_count = (processAll d B).2.suppressed_count := by
  have hl : ∀ s, lookupGroup (processAll d A).2.groups s =
      lookupGroup (processAll d B).2.groups s := by
    intro s
    rw [(processAll_slot A d s).1, (processAll_slot B d s).1, hfilt s]
  have hdec : ∀ s, (processAll d A).1.filter (fun p => getSignature p.1 == s) =
      (processAll d B).1.filter (fun p => getSignature p.1 == s) := by
    intro s
    rw [(processAll_slot A d s).2, (processAll_slot B d s).2, hfilt s]
  refine ⟨hl, hdec, ?_⟩
  have hperm : ((processAll d A).1).Perm ((processAll d B).1) := by
    rw [List.perm_iff_count]
    intro x
    have hx : (fun p : Alert × Bool => getSignature p.1 == getSignature x.1) x = true := by
      simp
    rw [← @List.count_filter _ (@instBEqOfDecidableEq (Alert × Bool) inferInstance)
          (@instLawfulBEq (Alert × Bool) inferInstance)
          (fun p => getSignature p.1 == getSignature x.1) x ((processAll d A).1) hx,
        ← @List.count_filter _ (@instBEqOfDecidableEq (Alert × Bool) inferInstance)
          (@instLawfulBEq (Alert × Bool) inferInstance)
          (fun p => getSignature p.1 == getSignature x.1) x ((processAll d B).1) hx,
        hdec (getSignature x.1)]
  rw [processAll_suppressed A d, processAll_suppressed B d, hperm.countP_eq]

/-- Witness for C5: swapping two different-signature alerts leaves the final
suppression tally (and the rest of the state) unchanged. -/
theorem claim_C5_witness :
    (processAll emptyDedup [demoAlert1, lateAlert]).2.suppressed_count =
      (processAll emptyDedup [lateAlert, demoAlert1]).2.suppressed_count := by
  have hfilt : ∀ s, [demoAlert1, lateAlert].filter (fun e => getSignature e == s) =
      [lateAlert, demoAlert1].filter (fun e => getSignature e == s) := by
    intro s
    by_cases h1 : getSignature demoAlert1 = s
    · by_cases h2 : getSignature lateAlert = s
      · exact absurd (h2.trans h1.symm) (by decide)
      · have b1 : (getSignature demoAlert1 == s) = true := beq_iff_eq.mpr h1
        have b2 : (getSignature lateAlert == s) = false := beq_eq_false_iff_ne.mpr h2
        simp [List.filter, b1, b2]
    · by_cases h2 : getSignature lateAlert = s
      · have b1 : (getSignature demoAlert1 == s) = false := beq_eq_false_iff_ne.mpr h1
        have b2 : (getSignature lateAlert == s) = true := beq_iff_eq.mpr h2
        simp [List.filter, b1, b2]
      · have b1 : (getSignature demoAlert1 == s) = false := beq_eq_false_iff_ne.mpr h1
        have b2 : (getSignature lateAlert == s) = false := beq_eq_false_iff_ne.mpr h2
        simp [List.filter, b1, b2]
  exact (claim_C5_cross_signature_order [demoAlert1, lateAlert] [lateAlert, demoAlert1]
    emptyDedup hfilt).2.2

/-! ## C2: idempotence of the normalizer

The proof strategy: each scanner's output contains no match of its own
pattern, later scanners cannot re-introduce matches of earlier patterns
(their replacement tokens contain no digits, hex runs, dashes, colons or
dots, and the `\b`-carrying patterns protect their boundaries), and a scan
with no matches is the identity.  First, fuel plumbing. -/

theorem subDateF_nil (f : Nat) : subDateF f [] = [] := by
  cases f <;> rfl

theorem subTimeF_nil (f : Nat) : subTimeF f [] = [] := by
  cases f <;> rfl

theorem subUUIDF_nil (f : Nat) (pw : Bool) : subUUIDF f pw [] = [] := by
  cases f <;> rfl

theorem subIPF_nil (f : Nat) (pw : Bool) : subIPF f pw [] = [] := by
  cases f <;> rfl

theorem subNumF_nil (f : Nat) (pw : Bool) : subNumF f pw [] = [] := by
  cases f <;> rfl

theorem subDateF_congr : ∀ (f1 f2 : Nat) (l : List Char),
    l.length ≤ f1 → l.length ≤ f2 → subDateF f1 l = subDateF f2 l := by
  intro f1
  induction f1 with
  | zero =>
      intro f2 l h1 _
      rw [List.length_eq_zero.mp (Nat.le_zero.mp h1)]
      exact (subDateF_nil f2).symm
  | succ f1 ih =>
      intro f2 l h1 h2
      cases l with
      | nil => rw [subDateF_nil, subDateF_nil]
      | cons c cs =>
          cases f2 with
          | zero => exact absurd h2 (by simp)
          | succ f2 =>
              simp only [subDateF]
              simp only [List.length_cons, Nat.succ_le_succ_iff] at h1 h2
              by_cases hc : checkDate (c :: cs)
              · rw [if_pos hc, if_pos hc, ih f2 (cs.drop 9)
                  (le_trans (by rw [List.length_drop]; exact Nat.sub_le _ _) h1)
                  (le_trans (by rw [List.length_drop]; exact Nat.sub_le _ _) h2)]
              · rw [if_neg hc, if_neg hc, ih f2 cs h1 h2]

theorem subTimeF_congr : ∀ (f1 f2 : Nat) (l : List Char),
    l.length ≤ f1 → l.length ≤ f2 → subTimeF f1 l = subTimeF f2 l := by
  intro f1
  induction f1 with
  | zero =>
      intro f2 l h1 _
      rw [List.length_eq_zero.mp (Nat.le_zero.mp h1)]
      exact (subTimeF_nil f2).symm
  | succ f1 ih =>
      intro f2 l h1 h2
      cases l with
      | nil => rw [subTimeF_nil, subTimeF_nil]
      | cons c cs =>
          cases f2 with
          | zero => exact absurd h2 (by simp)
          | succ f2 =>
              simp only [subTimeF]
              simp only [List.length_cons, Nat.succ_le_succ_iff] at h1 h2
              by_cases hc : checkTime (c :: cs)
              · rw [if_pos hc, if_pos hc, ih f2 (cs.drop 7)
                  (le_trans (by rw [List.length_drop]; exact Nat.sub_le _ _) h1)
                  (le_trans (by rw [List.length_drop]; exact Nat.sub_le _ _) h2)]
              · rw [if_neg hc, if_neg hc, ih f2 cs h1 h2]

theorem subUUIDF_congr : ∀ (f1 f2 : Nat) (pw : Bool) (l : List Char),
    l.length ≤ f1 → l.length ≤ f2 → subUUIDF f1 pw l = subUUIDF f2 pw l := by
  intro f1
  induction f1 with
  | zero =>
      intro f2 pw l h1 _
      rw [List.length_eq_zero.mp (Nat.le_zero.mp h1)]
      exact (subUUIDF_nil f2 pw).symm
  | succ f1 ih =>
      intro f2 pw l h1 h2
      cases l with
      | nil => rw [subUUIDF_nil, subUUIDF_nil]
      | cons c cs =>
          cases f2 with
          | zero => exact absurd h2 (by simp)
          | succ f2 =>
              simp only [subUUIDF]
              simp only [List.length_cons, Nat.succ_le_succ_iff] at h1 h2
              by_cases hc : (!pw && checkUUIDList (c :: cs) && noWordAhead (cs.drop 35))
              · rw [if_pos hc, if_pos hc, ih f2 true (cs.drop 35)
                  (le_trans (by rw [List.length_drop]; exact Nat.sub_le _ _) h1)
                  (le_trans (by rw [List.length_drop]; exact Nat.sub_le _ _) h2)]
              · rw [if_neg hc, if_neg hc, ih f2 (isWordChar c) cs h1 h2]

theorem subIPF_congr : ∀ (f1 f2 : Nat) (pw : Bool) (l : List Char),
    l.length ≤ f1 → l.length ≤ f2 → subIPF f1 pw l = subIPF f2 pw l := by
  intro f1
  induction f1 with
  | zero =>
      intro f2 pw l h1 _
      rw [List.length_eq_zero.mp (Nat.le_zero.mp h1)]
      exact (subIPF_nil f2 pw).symm
  | succ f1 ih =>
      intro f2 pw l h1 h2
      cases l with
      | nil => rw [subIPF_nil, subIPF_nil]
      | cons c cs =>
          cases f2 with
          | zero => exact absurd h2 (by simp)
          | succ f2 =>
              simp only [subIPF]
              simp only [List.length_cons, Nat.succ_le_succ_iff] at h1 h2
              cases hk : ipSpan c cs with
              | some k =>
                  simp only [hk]
                  by_cases hc : (!pw && noWordAhead (cs.drop k))
                  · rw [if_pos hc, if_pos hc, ih f2 true (cs.drop k)
                      (le_trans (by rw [List.length_drop]; exact Nat.sub_le _ _) h1)
                      (le_trans (by rw [List.length_drop]; exact Nat.sub_le _ _) h2)]
                  · rw [if_neg hc, if_neg hc, ih f2 (isWordChar c) cs h1 h2]
              | none =>
                  simp only [hk]
                  rw [ih f2 (isWordChar c) cs h1 h2]

theorem subNumF_congr : ∀ (f1 f2 : Nat) (pw : Bool) (l : List Char),
    l.length ≤ f1 → l.length ≤ f2 → subNumF f1 pw l = subNumF f2 pw l := by
  intro f1
  induction f1 with
  | zero =>
      intro f2 pw l h1 _
      rw [List.length_eq_zero.mp (Nat.le_zero.mp h1)]
      exact (subNumF_nil f2 pw).symm
  | succ f1 ih =>
      intro f2 pw l h1 h2
      cases l with
      | nil => rw [subNumF_nil, subNumF_nil]
      | cons c cs =>
          cases f2 with
          | zero => exact absurd h2 (by simp)
          | succ f2 =>
              simp only [subNumF]
              simp only [List.length_cons, Nat.succ_le_succ_iff] at h1 h2
              by_cases hc : (!pw && c.isDigit && noWordAhead (cs.drop (digitSpan cs)))
              · rw [if_pos hc, if_pos hc, ih f2 true (cs.drop (digitSpan cs))
                  (le_trans (by rw [List.length_drop]; exact Nat.sub_le _ _) h1)
                  (le_trans (by rw [List.length_drop]; exact Nat.sub_le _ _) h2)]
              · rw [if_neg hc, if_neg hc, ih f2 (isWordChar c) cs h1 h2]

theorem subDate_cons (c : Char) (cs : List Char) :
    subDate (c :: cs) =
      if checkDate (c :: cs) then dateTok ++ subDate (cs.drop 9)
      else c :: subDate cs := by
  show subDateF (c :: cs).length (c :: cs) = _
  simp only [List.length_cons, subDateF]
  by_cases hc : checkDate (c :: cs)
  · rw [if_pos hc, if_pos hc, subDateF_congr cs.length (cs.drop 9).length (cs.drop 9)
      (by rw [List.length_drop]; exact Nat.sub_le _ _) (le_refl _)]
    rfl
  · rw [if_neg hc, if_neg hc]
    rfl

theorem subTime_cons (c : Char) (cs : List Char) :
    subTime (c :: cs) =
      if checkTime (c :: cs) then timeTok ++ subTime (cs.drop 7)
      else c :: subTime cs := by
  show subTimeF (c :: cs).length (c :: cs) = _
  simp only [List.length_cons, subTimeF]
  by_cases hc : checkTime (c :: cs)
  · rw [if_pos hc, if_pos hc, subTimeF_congr cs.length (cs.drop 7).length (cs.drop 7)
      (by rw [List.length_drop]; exact Nat.sub_le _ _) (le_refl _)]
    rfl
  · rw [if_neg hc, if_neg hc]
    rfl

theorem subUUID_cons (pw : Bool) (c : Char) (cs : List Char) :
    subUUIDAux pw (c :: cs) =
      if !pw && checkUUIDList (c :: cs) && noWordAhead (cs.drop 35) then
        uuidTok ++ subUUIDAux true (cs.drop 35)
      else c :: subUUIDAux (isWordChar c) cs := by
  show subUUIDF (c :: cs).length pw (c :: cs) = _
  simp only [List.length_cons, subUUIDF]
  by_cases hc : (!pw && checkUUIDList (c :: cs) && noWordAhead (cs.drop 35))
  · rw [if_pos hc, if_pos hc, subUUIDF_congr cs.length (cs.drop 35).length true (cs.drop 35)
      (by rw [List.length_drop]; exact Nat.sub_le _ _) (le_refl _)]
    rfl
  · rw [if_neg hc, if_neg hc]
    rfl

theorem subIP_cons (pw : Bool) (c : Char) (cs : List Char) :
    subIPAux pw (c :: cs) =
      match ipSpan c cs with
      | some k =>
          if !pw && noWordAhead (cs.drop k) then ipTok ++ subIPAux true (cs.drop k)
          else c :: subIPAux (isWordChar c) cs
      | none => c :: subIPAux (isWordChar c) cs := by
  show subIPF (c :: cs).length pw (c :: cs) = _
  simp only [List.length_cons, subIPF]
  cases hk : ipSpan c cs with
  | some k =>
      simp only [hk]
      by_cases hc : (!pw && noWordAhead (cs.drop k))
      · rw [if_pos hc, if_pos hc, subIPF_congr cs.length (cs.drop k).length true (cs.drop k)
          (by rw [List.length_drop]; exact Nat.sub_le _ _) (le_refl _)]
        rfl
      · rw [if_neg hc, if_neg hc]
        rfl
  | none =>
      simp only [hk]
      rfl

theorem subNum_cons (pw : Bool) (c : Char) (cs : List Char) :
    subNumAux pw (c :: cs) =
      if !pw && c.isDigit && noWordAhead (cs.drop (digitSpan cs)) then
        numTok ++ subNumAux true (cs.drop (digitSpan cs))
      else c :: subNumAux (isWordChar c) cs := by
  show subNumF (c :: cs).length pw (c :: cs) = _
  simp only [List.length_cons, subNumF]
  by_cases hc : (!pw && c.isDigit && noWordAhead (cs.drop (digitSpan cs)))
  · rw [if_pos hc, if_pos hc,
      subNumF_congr cs.length (cs.drop (digitSpan cs)).length true (cs.drop (digitSpan cs))
        (by rw [List.length_drop]; exact Nat.sub_le _ _) (le_refl _)]
    rfl
  · rw [if_neg hc, if_neg hc]
    rfl

/-! ### A match-free scan is the identity -/

theorem subDate_id_fuel : ∀ (n : Nat) (l : List Char), l.length ≤ n →
    noDateScan l = true → subDate l = l := by
  intro n
  induction n with
  | zero =>
      intro l h1 _
      rw [List.length_eq_zero.mp (Nat.le_zero.mp h1)]
      rfl
  | succ n ih =>
      intro l h1 hs
      cases l with
      | nil => rfl
      | cons c cs =>
          simp only [noDateScan, Bool.and_eq_true, Bool.not_eq_true'] at hs
          rw [subDate_cons, if_neg (by simp [hs.1]),
            ih cs (by simp at h1; omega) hs.2]

theorem subDate_id (l : List Char) (h : noDateScan l = true) : subDate l = l :=
  subDate_id_fuel l.length l (le_refl _) h

theorem subTime_id_fuel : ∀ (n : Nat) (l : List Char), l.length ≤ n →
    noTimeScan l = true → subTime l = l := by
  intro n
  induction n with
  | zero =>
      intro l h1 _
      rw [List.length_eq_zero.mp (Nat.le_zero.mp h1)]
      rfl
  | succ n ih =>
      intro l h1 hs
      cases l with
      | nil => rfl
      | cons c cs =>
          simp only [noTimeScan, Bool.and_eq_true, Bool.not_eq_true'] at hs
          rw [subTime_cons, if_neg (by simp [hs.1]),
            ih cs (by simp at h1; omega) hs.2]

theorem subTime_id (l : List Char) (h : noTimeScan l = true) : subTime l = l :=
  subTime_id_fuel l.length l (le_refl _) h

theorem subUUID_id_fuel : ∀ (n : Nat) (pw : Bool) (l : List Char), l.length ≤ n →
    noUUIDScan pw l = true → subUUIDAux pw l = l := by
  intro n
  induction n with
  | zero =>
      intro pw l h1 _
      rw [List.length_eq_zero.mp (Nat.le_zero.mp h1)]
      rfl
  | succ n ih =>
      intro pw l h1 hs
      cases l with
      | nil => rfl
      | cons c cs =>
          simp only [noUUIDScan, Bool.and_eq_true, Bool.not_eq_true'] at hs
          rw [subUUID_cons, if_neg (by simp [hs.1]),
            ih (isWordChar c) cs (by simp at h1; omega) hs.2]

theorem subUUID_id (pw : Bool) (l : List Char) (h : noUUIDScan pw l = true) :
    subUUIDAux pw l = l :=
  subUUID_id_fuel l.length pw l (le_refl _) h

theorem subIP_id_fuel : ∀ (n : Nat) (pw : Bool) (l : List Char), l.length ≤ n →
    noIPScan pw l = true → subIPAux pw l = l := by
  intro n
  induction n with
  | zero =>
      intro pw l h1 _
      rw [List.length_eq_zero.mp (Nat.le_zero.mp h1)]
      rfl
  | succ n ih =>
      intro pw l h1 hs
      cases l with
      | nil => rfl
      | cons c cs =>
          simp only [noIPScan, Bool.and_eq_true] at hs
          rw [subIP_cons]
          cases hk : ipSpan c cs with
          | some k =>
              simp only [hk] at hs ⊢
              have hcond : (!pw && noWordAhead (cs.drop k)) = false := by
                rcases Bool.or_eq_true_iff.mp hs.1 with h | h
                · simp [h]
                · have hnw : noWordAhead (cs.drop k) = false := by simpa using h
                  simp [hnw]
              rw [if_neg (by simp [hcond]), ih (isWordChar c) cs (by simp at h1; omega) hs.2]
          | none =>
              simp only [hk]
              rw [ih (isWordChar c) cs (by simp at h1; omega) hs.2]

theorem subIP_id (pw : Bool) (l : List Char) (h : noIPScan pw l = true) :
    subIPAux pw l = l :=
  subIP_id_fuel l.length pw l (le_refl _) h

theorem subNum_id_fuel : ∀ (n : Nat) (pw : Bool) (l : List Char), l.length ≤ n →
    noNumScan pw l = true → subNumAux pw l = l := by
  intro n
  induction n with
  | zero =>
      intro pw l h1 _
      rw [List.length_eq_zero.mp (Nat.le_zero.mp h1)]
      rfl
  | succ n ih =>
      intro pw l h1 hs
      cases l with
      | nil => rfl
      | cons c cs =>
          simp only [noNumScan, Bool.and_eq_true, Bool.not_eq_true'] at hs
          rw [subNum_cons, if_neg (by simp [hs.1]),
            ih (isWordChar c) cs (by simp at h1; omega) hs.2]

theorem subNum_id (pw : Bool) (l : List Char) (h : noNumScan pw l = true) :
    subNumAux pw l = l :=
  subNum_id_fuel l.length pw l (le_refl _) h

/-! ### First characters of matches, and digit-run facts -/

theorem checkDate_head (c : Char) (cs : List Char) (h : checkDate (c :: cs) = true) :
    c.isDigit = true := by
  rcases cs with _ | ⟨b, _ | ⟨d, _ | ⟨e, _ | ⟨f, _ | ⟨g, _ | ⟨i, _ | ⟨j, _ | ⟨k, _ | ⟨m, rest⟩⟩⟩⟩⟩⟩⟩⟩⟩ <;>
    simp [checkDate] at h <;> tauto

theorem checkTime_head (c : Char) (cs : List Char) (h : checkTime (c :: cs) = true) :
    c.isDigit = true := by
  rcases cs with _ | ⟨b, _ | ⟨d, _ | ⟨e, _ | ⟨f, _ | ⟨g, _ | ⟨i, _ | ⟨j, rest⟩⟩⟩⟩⟩⟩⟩ <;>
    simp [checkTime] at h <;> tauto

theorem checkUUID_head (c : Char) (cs : List Char) (h : checkUUIDList (c :: cs) = true) :
    isHexLower c = true := by
  by_cases hx : isHexLower c
  · exact hx
  · simp [checkUUIDList, hexChunk, hx] at h

theorem ipSpan_head (c : Char) (cs : List Char) (k : Nat) (h : ipSpan c cs = some k) :
    c.isDigit = true := by
  by_cases hc : c.isDigit
  · exact hc
  · simp [ipSpan, hc] at h

theorem digit_isWord (c : Char) (h : c.isDigit = true) : isWordChar c = true := by
  simp [isWordChar, Char.isAlphanum, h]

theorem hex_isWord (c : Char) (h : isHexLower c = true) : isWordChar c = true := by
  simp only [isHexLower, Bool.or_eq_true] at h
  rcases h with hd | hr
  · exact digit_isWord c hd
  · simp only [Bool.and_eq_true, decide_eq_true_eq] at hr
    have hα : c.isAlpha = true := by
      simp only [Char.isAlpha, Char.isLower, Char.isUpper, Bool.or_eq_true,
        Bool.and_eq_true, decide_eq_true_eq]
      right
      constructor
      · exact UInt32.le_trans (by decide : (97 : UInt32) ≤ ('a' : Char).val)
          (Char.le_def.mp hr.1)
      · exact UInt32.le_trans (Char.le_def.mp hr.2)
          (by decide : ('f' : Char).val ≤ (122 : UInt32))
    simp [isWordChar, Char.isAlphanum, hα]

theorem take_digitSpan (l : List Char) : l.take (digitSpan l) = l.takeWhile Char.isDigit := by
  induction l with
  | nil => rfl
  | cons c cs ih =>
      by_cases hc : c.isDigit
      · simp [digitSpan, List.takeWhile, hc] at ih ⊢
        simpa [digitSpan] using ih
      · simp [digitSpan, List.takeWhile, hc]

theorem drop_digitSpan (l : List Char) : l.drop (digitSpan l) = l.dropWhile Char.isDigit := by
  induction l with
  | nil => rfl
  | cons c cs ih =>
      by_cases hc : c.isDigit
      · simp [digitSpan, List.takeWhile, List.dropWhile, hc] at ih ⊢
        simpa [digitSpan] using ih
      · simp [digitSpan, List.takeWhile, List.dropWhile, hc]

theorem dropWhile_head_not (p : Char → Bool) (l : List Char) (r : Char) (rs : List Char)
    (h : l.dropWhile p = r :: rs) : p r = false := by
  induction l with
  | nil => cases h
  | cons c cs ih =>
      by_cases hc : p c
      · simp [List.dropWhile, hc] at h
        exact ih h
      · simp [List.dropWhile, hc] at h
        rw [← h.1]
        simp [hc]

theorem digitSpan_append (d rest : List Char) (hd : ∀ x ∈ d, x.isDigit = true)
    (hr : ∀ r rs, rest = r :: rs → r.isDigit = false) :
    digitSpan (d ++ rest) = d.length := by
  induction d with
  | nil =>
      cases rest with
      | nil => rfl
      | cons r rs => simp [digitSpan, List.takeWhile, hr r rs rfl]
  | cons x xs ih =>
      have hx : x.isDigit = true := hd x (by simp)
      have ih2 := ih (fun y hy => hd y (by simp [hy]))
      simp only [digitSpan] at ih2 ⊢
      rw [List.cons_append, List.takeWhile_cons_of_pos hx, List.length_cons,
        List.length_cons, ih2]

theorem dropWhile_digit_append (d rest : List Char) (hd : ∀ x ∈ d, x.isDigit = true)
    (hr : ∀ r rs, rest = r :: rs → r.isDigit = false) :
    (d ++ rest).dropWhile Char.isDigit = rest := by
  induction d with
  | nil =>
      cases rest with
      | nil => rfl
      | cons r rs => simp [List.dropWhile, hr r rs rfl]
  | cons x xs ih =>
      have hx : x.isDigit = true := hd x (by simp)
      rw [List.cons_append, List.dropWhile_cons_of_pos hx]
      exact ih (fun y hy => hd y (by simp [hy]))

/-! ### Shape of each pattern's match body -/

theorem checkDate_sound (l : List Char) (h : checkDate l = true) :
    ∃ y1 y2 y3 y4 m1 m2 d1 d2 rest,
      l = y1 :: y2 :: y3 :: y4 :: '-' :: m1 :: m2 :: '-' :: d1 :: d2 :: rest ∧
      y1.isDigit = true ∧ y2.isDigit = true ∧ y3.isDigit = true ∧ y4.isDigit = true ∧
      m1.isDigit = true ∧ m2.isDigit = true ∧ d1.isDigit = true ∧ d2.isDigit = true := by
  rcases l with _ | ⟨a, _ | ⟨b, _ | ⟨c, _ | ⟨d, _ | ⟨e, _ | ⟨f, _ | ⟨g, _ | ⟨i, _ | ⟨j, _ |
    ⟨k, rest⟩⟩⟩⟩⟩⟩⟩⟩⟩⟩
  all_goals simp [checkDate] at h
  refine ⟨a, b, c, d, f, g, j, k, rest, ?_, ?_, ?_, ?_, ?_, ?_, ?_, ?_, ?_⟩ <;> simp_all

theorem checkDate_complete (y1 y2 y3 y4 m1 m2 d1 d2 : Char) (rest : List Char)
    (h1 : y1.isDigit = true) (h2 : y2.isDigit = true) (h3 : y3.isDigit = true)
    (h4 : y4.isDigit = true) (h5 : m1.isDigit = true) (h6 : m2.isDigit = true)
    (h7 : d1.isDigit = true) (h8 : d2.isDigit = true) :
    checkDate (y1 :: y2 :: y3 :: y4 :: '-' :: m1 :: m2 :: '-' :: d1 :: d2 :: rest) = true := by
  simp [checkDate, h1, h2, h3, h4, h5, h6, h7, h8]

theorem checkTime_sound (l : List Char) (h : checkTime l = true) :
    ∃ a1 a2 b1 b2 c1 c2 rest,
      l = a1 :: a2 :: ':' :: b1 :: b2 :: ':' :: c1 :: c2 :: rest ∧
      a1.isDigit = true ∧ a2.isDigit = true ∧ b1.isDigit = true ∧ b2.isDigit = true ∧
      c1.isDigit = true ∧ c2.isDigit = true := by
  rcases l with _ | ⟨a, _ | ⟨b, _ | ⟨c, _ | ⟨d, _ | ⟨e, _ | ⟨f, _ | ⟨g, _ |
    ⟨i, rest⟩⟩⟩⟩⟩⟩⟩⟩
  all_goals simp [checkTime] at h
  refine ⟨a, b, d, e, g, i, rest, ?_, ?_, ?_, ?_, ?_, ?_, ?_⟩ <;> simp_all

theorem checkTime_complete (a1 a2 b1 b2 c1 c2 : Char) (rest : List Char)
    (h1 : a1.isDigit = true) (h2 : a2.isDigit = true) (h3 : b1.isDigit = true)
    (h4 : b2.isDigit = true) (h5 : c1.isDigit = true) (h6 : c2.isDigit = true) :
    checkTime (a1 :: a2 :: ':' :: b1 :: b2 :: ':' :: c1 :: c2 :: rest) = true := by
  simp [checkTime, h1, h2, h3, h4, h5, h6]

theorem hexChunk_sound : ∀ (n : Nat) (l r : List Char), hexChunk n l = some r →
    ∃ h, l = h ++ r ∧ h.length = n ∧ ∀ x ∈ h, isHexLower x = true := by
  intro n
  induction n with
  | zero =>
      intro l r h
      simp [hexChunk] at h
      exact ⟨[], by simp [h], rfl, by simp⟩
  | succ n ih =>
      intro l r h
      cases l with
      | nil => cases h
      | cons c cs =>
          by_cases hc : isHexLower c
          · simp only [hexChunk, hc, if_pos] at h
            obtain ⟨hh, hcs, hlen, hhex⟩ := ih cs r h
            refine ⟨c :: hh, by simp [hcs], by simp [hlen], ?_⟩
            intro x hx
            rcases List.mem_cons.mp hx with h | h
            · rw [h]; exact hc
            · exact hhex x h
          · simp [hexChunk, hc] at h

theorem hexChunk_complete : ∀ (h r : List Char), (∀ x ∈ h, isHexLower x = true) →
    hexChunk h.length (h ++ r) = some r := by
  intro h
  induction h with
  | nil => intro r _; rfl
  | cons c cs ih =>
      intro r hhex
      have hc : isHexLower c = true := hhex c (by simp)
      simp only [List.length_cons, List.cons_append, hexChunk, hc, if_pos]
      exact ih r (fun x hx => hhex x (by simp [hx]))

theorem dashChunk_sound (l r : List Char) (h : dashChunk l = some r) : l = '-' :: r := by
  cases l with
  | nil => cases h
  | cons c t =>
      by_cases hc : c = '-'
      · subst hc
        simp [dashChunk] at h
        rw [h]
      · simp [dashChunk, hc] at h

theorem dashChunk_complete (r : List Char) : dashChunk ('-' :: r) = some r := by
  simp [dashChunk]

theorem checkUUID_sound (l : List Char) (h : checkUUIDList l = true) :
    ∃ h8 h4a h4b h4c h12 rest,
      l = h8 ++ '-' :: (h4a ++ '-' :: (h4b ++ '-' :: (h4c ++ '-' :: (h12 ++ rest)))) ∧
      h8.length = 8 ∧ h4a.length = 4 ∧ h4b.length = 4 ∧ h4c.length = 4 ∧ h12.length = 12 ∧
      (∀ x ∈ h8, isHexLower x = true) ∧ (∀ x ∈ h4a, isHexLower x = true) ∧
      (∀ x ∈ h4b, isHexLower x = true) ∧ (∀ x ∈ h4c, isHexLower x = true) ∧
      (∀ x ∈ h12, isHexLower x = true) := by
  unfold checkUUIDList at h
  rw [Option.isSome_iff_exists] at h
  obtain ⟨rest, hbind⟩ := h
  rw [Option.bind_eq_some] at hbind
  obtain ⟨l8, hbind, hc12⟩ := hbind
  rw [Option.bind_eq_some] at hbind
  obtain ⟨l7, hbind, hd4⟩ := hbind
  rw [Option.bind_eq_some] at hbind
  obtain ⟨l6, hbind, hc4c⟩ := hbind
  rw [Option.bind_eq_some] at hbind
  obtain ⟨l5, hbind, hd3⟩ := hbind
  rw [Option.bind_eq_some] at hbind
  obtain ⟨l4, hbind, hc4b⟩ := hbind
  rw [Option.bind_eq_some] at hbind
  obtain ⟨l3, hbind, hd2⟩ := hbind
  rw [Option.bind_eq_some] at hbind
  obtain ⟨l2, hbind, hc4a⟩ := hbind
  rw [Option.bind_eq_some] at hbind
  obtain ⟨l1, hc8, hd1⟩ := hbind
  obtain ⟨h8, he8, hl8, hx8⟩ := hexChunk_sound 8 l l1 hc8
  obtain ⟨h4a, he4a, hl4a, hx4a⟩ := hexChunk_sound 4 l2 l3 hc4a
  obtain ⟨h4b, he4b, hl4b, hx4b⟩ := hexChunk_sound 4 l4 l5 hc4b
  obtain ⟨h4c, he4c, hl4c, hx4c⟩ := hexChunk_sound 4 l6 l7 hc4c
  obtain ⟨h12, he12, hl12, hx12⟩ := hexChunk_sound 12 l8 rest hc12
  have e1 := dashChunk_sound l1 l2 hd1
  have e2 := dashChunk_sound l3 l4 hd2
  have e3 := dashChunk_sound l5 l6 hd3
  have e4 := dashChunk_sound l7 l8 hd4
  refine ⟨h8, h4a, h4b, h4c, h12, rest, ?_, hl8, hl4a, hl4b, hl4c, hl12,
    hx8, hx4a, hx4b, hx4c, hx12⟩
  rw [he8, e1, he4a, e2, he4b, e3, he4c, e4, he12]

theorem checkUUID_complete (h8 h4a h4b h4c h12 rest : List Char)
    (hl8 : h8.length = 8) (hl4a : h4a.length = 4) (hl4b : h4b.length = 4)
    (hl4c : h4c.length = 4) (hl12 : h12.length = 12)
    (hx8 : ∀ x ∈ h8, isHexLower x = true) (hx4a : ∀ x ∈ h4a, isHexLower x = true)
    (hx4b : ∀ x ∈ h4b, isHexLower x = true) (hx4c : ∀ x ∈ h4c, isHexLower x = true)
    (hx12 : ∀ x ∈ h12, isHexLower x = true) :
    checkUUIDList
      (h8 ++ '-' :: (h4a ++ '-' :: (h4b ++ '-' :: (h4c ++ '-' :: (h12 ++ rest))))) = true := by
  have c8 : hexChunk 8 (h8 ++ '-' :: (h4a ++ '-' :: (h4b ++ '-' :: (h4c ++ '-' ::
      (h12 ++ rest))))) = some ('-' :: (h4a ++ '-' :: (h4b ++ '-' :: (h4c ++ '-' ::
      (h12 ++ rest))))) := by
    have hc := hexChunk_complete h8
      ('-' :: (h4a ++ '-' :: (h4b ++ '-' :: (h4c ++ '-' :: (h12 ++ rest))))) hx8
    rwa [hl8] at hc
  have c4a : hexChunk 4 (h4a ++ '-' :: (h4b ++ '-' :: (h4c ++ '-' :: (h12 ++ rest)))) =
      some ('-' :: (h4b ++ '-' :: (h4c ++ '-' :: (h12 ++ rest)))) := by
    have hc := hexChunk_complete h4a
      ('-' :: (h4b ++ '-' :: (h4c ++ '-' :: (h12 ++ rest)))) hx4a
    rwa [hl4a] at hc
  have c4b : hexChunk 4 (h4b ++ '-' :: (h4c ++ '-' :: (h12 ++ rest))) =
      some ('-' :: (h4c ++ '-' :: (h12 ++ rest))) := by
    have hc := hexChunk_complete h4b ('-' :: (h4c ++ '-' :: (h12 ++ rest))) hx4b
    rwa [hl4b] at hc
  have c4c : hexChunk 4 (h4c ++ '-' :: (h12 ++ rest)) = some ('-' :: (h12 ++ rest)) := by
    have hc := hexChunk_complete h4c ('-' :: (h12 ++ rest)) hx4c
    rwa [hl4c] at hc
  have c12 : hexChunk 12 (h12 ++ rest) = some rest := by
    have hc := hexChunk_complete h12 rest hx12
    rwa [hl12] at hc
  unfold checkUUIDList
  simp [c8, c4a, c4b, c4c, c12, dashChunk_complete]

theorem dotChunk_sound (l r : List Char) (h : dotChunk l = some r) : l = '.' :: r := by
  cases l with
  | nil => cases h
  | cons c t =>
      by_cases hc : c = '.'
      · subst hc
        simp [dotChunk] at h
        rw [h]
      · simp [dotChunk, hc] at h

theorem dotChunk_complete (r : List Char) : dotChunk ('.' :: r) = some r := by
  simp [dotChunk]

theorem drop_cons_append (a : List Char) (x : Char) (b : List Char) (n : Nat) :
    (a ++ x :: b).drop (a.length + 1 + n) = b.drop n := by
  have he : a ++ x :: b = (a ++ [x]) ++ b := by simp
  have hl : a.length + 1 + n = (a ++ [x]).length + n := by simp
  rw [he, hl, List.drop_append]

theorem takeWhile_digit_ne_nil (l : List Char) (h : digitSpan l ≠ 0) :
    l.takeWhile Char.isDigit ≠ [] := by
  intro hnil
  exact h (by simp [digitSpan, hnil])

theorem ipSpan_sound (c : Char) (cs : List Char) (k : Nat) (h : ipSpan c cs = some k) :
    ∃ d1 d2 d3 d4 rest,
      cs = d1 ++ '.' :: (d2 ++ '.' :: (d3 ++ '.' :: (d4 ++ rest))) ∧
      k = d1.length + 1 + d2.length + 1 + d3.length + 1 + d4.length ∧
      c.isDigit = true ∧
      (∀ x ∈ d1, x.isDigit = true) ∧
      d2 ≠ [] ∧ (∀ x ∈ d2, x.isDigit = true) ∧
      d3 ≠ [] ∧ (∀ x ∈ d3, x.isDigit = true) ∧
      d4 ≠ [] ∧ (∀ x ∈ d4, x.isDigit = true) ∧
      (∀ r rs, rest = r :: rs → r.isDigit = false) ∧
      cs.drop k = rest := by
  have hc : c.isDigit = true := ipSpan_head c cs k h
  unfold ipSpan at h
  rw [if_neg (by simp [hc])] at h
  rw [Option.bind_eq_some] at h
  obtain ⟨t1, hd1, h⟩ := h
  by_cases h2 : digitSpan t1 = 0
  · simp [h2] at h
  rw [if_neg (by simp [h2])] at h
  rw [Option.bind_eq_some] at h
  obtain ⟨t2, hd2, h⟩ := h
  by_cases h3 : digitSpan t2 = 0
  · simp [h3] at h
  rw [if_neg (by simp [h3])] at h
  rw [Option.bind_eq_some] at h
  obtain ⟨t3, hd3, h⟩ := h
  by_cases h4 : digitSpan t3 = 0
  · simp [h4] at h
  rw [if_neg (by simp [h4])] at h
  have hk : k = digitSpan cs + 1 + digitSpan t1 + 1 + digitSpan t2 + 1 + digitSpan t3 :=
    (Option.some_inj.mp h).symm
  have e1 : cs.dropWhile Char.isDigit = '.' :: t1 := by
    rw [← drop_digitSpan]
    exact dotChunk_sound _ _ hd1
  have e2 : t1.dropWhile Char.isDigit = '.' :: t2 := by
    rw [← drop_digitSpan]
    exact dotChunk_sound _ _ hd2
  have e3 : t2.dropWhile Char.isDigit = '.' :: t3 := by
    rw [← drop_digitSpan]
    exact dotChunk_sound _ _ hd3
  refine ⟨cs.takeWhile Char.isDigit, t1.takeWhile Char.isDigit, t2.takeWhile Char.isDigit,
    t3.takeWhile Char.isDigit, t3.dropWhile Char.isDigit, ?_, ?_, hc, ?_, ?_, ?_, ?_, ?_,
    ?_, ?_, ?_, ?_⟩
  · conv_lhs => rw [← List.takeWhile_append_dropWhile Char.isDigit cs]
    rw [e1]
    congr 2
    conv_lhs => rw [← List.takeWhile_append_dropWhile Char.isDigit t1]
    rw [e2]
    congr 2
    conv_lhs => rw [← List.takeWhile_append_dropWhile Char.isDigit t2]
    rw [e3]
    congr 2
    exact (List.takeWhile_append_dropWhile Char.isDigit t3).symm
  · rw [hk]
    simp [digitSpan]
  · intro x hx
    exact List.mem_takeWhile_imp hx
  · exact takeWhile_digit_ne_nil t1 h2
  · intro x hx
    exact List.mem_takeWhile_imp hx
  · exact takeWhile_digit_ne_nil t2 h3
  · intro x hx
    exact List.mem_takeWhile_imp hx
  · exact takeWhile_digit_ne_nil t3 h4
  · intro x hx
    exact List.mem_takeWhile_imp hx
  · intro r rs hr
    exact dropWhile_head_not Char.isDigit t3 r rs hr
  · have hsh : k = (cs.takeWhile Char.isDigit).length + 1 +
        ((t1.takeWhile Char.isDigit).length + 1 +
          ((t2.takeWhile Char.isDigit).length + 1 + (t3.takeWhile Char.isDigit).length)) := by
      rw [hk]
      simp [digitSpan]
      omega
    have hcs : cs = cs.takeWhile Char.isDigit ++ '.' ::
        (t1.takeWhile Char.isDigit ++ '.' ::
          (t2.takeWhile Char.isDigit ++ '.' :: (t3.takeWhile Char.isDigit ++
            t3.dropWhile Char.isDigit))) := by
      conv_lhs => rw [← List.takeWhile_append_dropWhile Char.isDigit cs]
      rw [e1]
      congr 2
      conv_lhs => rw [← List.takeWhile_append_dropWhile Char.isDigit t1]
      rw [e2]
      congr 2
      conv_lhs => rw [← List.takeWhile_append_dropWhile Char.isDigit t2]
      rw [e3]
      congr 2
      exact (List.takeWhile_append_dropWhile Char.isDigit t3).symm
    have hdrop := congrArg (List.drop k) hcs
    rw [hdrop, hsh, drop_cons_append, drop_cons_append, drop_cons_append, List.drop_left]

theorem ipSpan_complete (c : Char) (d1 d2 d3 d4 rest : List Char)
    (hc : c.isDigit = true)
    (x1 : ∀ x ∈ d1, x.isDigit = true)
    (n2 : d2 ≠ []) (x2 : ∀ x ∈ d2, x.isDigit = true)
    (n3 : d3 ≠ []) (x3 : ∀ x ∈ d3, x.isDigit = true)
    (n4 : d4 ≠ []) (x4 : ∀ x ∈ d4, x.isDigit = true)
    (hr : ∀ r rs, rest = r :: rs → r.isDigit = false) :
    ipSpan c (d1 ++ '.' :: (d2 ++ '.' :: (d3 ++ '.' :: (d4 ++ rest)))) =
      some (d1.length + 1 + d2.length + 1 + d3.length + 1 + d4.length) := by
  have hdot : ∀ rs : List Char, ∀ r, ('.' :: rs : List Char) = r :: rs → r.isDigit = false := by
    intro rs r hr0
    cases hr0
    decide
  have s1 : digitSpan (d1 ++ '.' :: (d2 ++ '.' :: (d3 ++ '.' :: (d4 ++ rest)))) =
      d1.length :=
    digitSpan_append d1 _ x1 (by intro r rs h0; cases h0; decide)
  have w1 : (d1 ++ '.' :: (d2 ++ '.' :: (d3 ++ '.' :: (d4 ++ rest)))).drop
      (digitSpan (d1 ++ '.' :: (d2 ++ '.' :: (d3 ++ '.' :: (d4 ++ rest))))) =
      '.' :: (d2 ++ '.' :: (d3 ++ '.' :: (d4 ++ rest))) := by
    rw [drop_digitSpan]
    exact dropWhile_digit_append d1 _ x1 (by intro r rs h0; cases h0; decide)
  have s2 : digitSpan (d2 ++ '.' :: (d3 ++ '.' :: (d4 ++ rest))) = d2.length :=
    digitSpan_append d2 _ x2 (by intro r rs h0; cases h0; decide)
  have w2 : (d2 ++ '.' :: (d3 ++ '.' :: (d4 ++ rest))).drop
      (digitSpan (d2 ++ '.' :: (d3 ++ '.' :: (d4 ++ rest)))) =
      '.' :: (d3 ++ '.' :: (d4 ++ rest)) := by
    rw [drop_digitSpan]
    exact dropWhile_digit_append d2 _ x2 (by intro r rs h0; cases h0; decide)
  have s3 : digitSpan (d3 ++ '.' :: (d4 ++ rest)) = d3.length :=
    digitSpan_append d3 _ x3 (by intro r rs h0; cases h0; decide)
  have w3 : (d3 ++ '.' :: (d4 ++ rest)).drop (digitSpan (d3 ++ '.' :: (d4 ++ rest))) =
      '.' :: (d4 ++ rest) := by
    rw [drop_digitSpan]
    exact dropWhile_digit_append d3 _ x3 (by intro r rs h0; cases h0; decide)
  have s4 : digitSpan (d4 ++ rest) = d4.length :=
    digitSpan_append d4 rest x4 hr
  unfold ipSpan
  rw [if_neg (by simp [hc]), w1, dotChunk_complete]
  simp only [Option.some_bind]
  rw [if_neg (by simp [s2]; exact fun hh => n2 hh), w2,
    dotChunk_complete]
  simp only [Option.some_bind]
  rw [if_neg (by simp [s3]; exact fun hh => n3 hh), w3,
    dotChunk_complete]
  simp only [Option.some_bind]
  rw [if_neg (by simp [s4]; exact fun hh => n4 hh)]
  rw [s1, s2, s3, s4]

/-! ### Shape of scanner output: emitted prefix, token, recursive rest -/

theorem pwAfter_cons (pw : Bool) (c : Char) (pre : List Char) :
    pwAfter pw (c :: pre) = pwAfter (isWordChar c) pre := by
  cases pre with
  | nil => rfl
  | cons d pre' =>
      unfold pwAfter
      rw [List.getLast?_cons_cons]
      cases h : (d :: pre').getLast? with
      | none => simp at h
      | some x => rfl

theorem subDate_outshape : ∀ (n : Nat) (l : List Char), l.length ≤ n →
    subDate l = l ∨
    ∃ pre mid rest, l = pre ++ mid ++ rest ∧
      subDate l = pre ++ dateTok ++ subDate rest := by
  intro n
  induction n with
  | zero =>
      intro l h1
      rw [List.length_eq_zero.mp (Nat.le_zero.mp h1)]
      exact Or.inl rfl
  | succ n ih =>
      intro l h1
      cases l with
      | nil => exact Or.inl rfl
      | cons c cs =>
          rw [subDate_cons]
          by_cases hc : checkDate (c :: cs)
          · rw [if_pos hc]
            refine Or.inr ⟨[], c :: cs.take 9, cs.drop 9, ?_, rfl⟩
            simp [List.take_append_drop]
          · rw [if_neg hc]
            rcases ih cs (by simp at h1; omega) with hid | ⟨pre, mid, rest, hsplit, hout⟩
            · rw [hid]
              exact Or.inl rfl
            · refine Or.inr ⟨c :: pre, mid, rest, by simp [hsplit], ?_⟩
              rw [hout]
              rfl

theorem subTime_outshape : ∀ (n : Nat) (l : List Char), l.length ≤ n →
    subTime l = l ∨
    ∃ pre mid rest, l = pre ++ mid ++ rest ∧
      subTime l = pre ++ timeTok ++ subTime rest := by
  intro n
  induction n with
  | zero =>
      intro l h1
      rw [List.length_eq_zero.mp (Nat.le_zero.mp h1)]
      exact Or.inl rfl
  | succ n ih =>
      intro l h1
      cases l with
      | nil => exact Or.inl rfl
      | cons c cs =>
          rw [subTime_cons]
          by_cases hc : checkTime (c :: cs)
          · rw [if_pos hc]
            refine Or.inr ⟨[], c :: cs.take 7, cs.drop 7, ?_, rfl⟩
            simp [List.take_append_drop]
          · rw [if_neg hc]
            rcases ih cs (by simp at h1; omega) with hid | ⟨pre, mid, rest, hsplit, hout⟩
            · rw [hid]
              exact Or.inl rfl
            · refine Or.inr ⟨c :: pre, mid, rest, by simp [hsplit], ?_⟩
              rw [hout]
              rfl

theorem subUUID_outshape : ∀ (n : Nat) (pw : Bool) (l : List Char), l.length ≤ n →
    subUUIDAux pw l = l ∨
    ∃ pre m0 mtl rest, l = pre ++ (m0 :: mtl) ++ rest ∧
      subUUIDAux pw l = pre ++ uuidTok ++ subUUIDAux true rest ∧
      pwAfter pw pre = false ∧ isHexLower m0 = true ∧ noWordAhead rest = true := by
  intro n
  induction n with
  | zero =>
      intro pw l h1
      rw [List.length_eq_zero.mp (Nat.le_zero.mp h1)]
      exact Or.inl rfl
  | succ n ih =>
      intro pw l h1
      cases l with
      | nil => exact Or.inl rfl
      | cons c cs =>
          rw [subUUID_cons]
          by_cases hc : (!pw && checkUUIDList (c :: cs) && noWordAhead (cs.drop 35))
          · rw [if_pos hc]
            simp only [Bool.and_eq_true, Bool.not_eq_true'] at hc
            refine Or.inr ⟨[], c, cs.take 35, cs.drop 35, by simp [List.take_append_drop],
              rfl, hc.1.1, checkUUID_head c cs hc.1.2, hc.2⟩
          · rw [if_neg hc]
            rcases ih (isWordChar c) cs (by simp at h1; omega) with
              hid | ⟨pre, m0, mtl, rest, hsplit, hout, hpw, hm0, hnw⟩
            · rw [hid]
              exact Or.inl rfl
            · refine Or.inr ⟨c :: pre, m0, mtl, rest, by simp [hsplit], ?_,
                by rw [pwAfter_cons]; exact hpw, hm0, hnw⟩
              rw [hout]
              rfl

theorem subIP_outshape : ∀ (n : Nat) (pw : Bool) (l : List Char), l.length ≤ n →
    subIPAux pw l = l ∨
    ∃ pre m0 mtl rest, l = pre ++ (m0 :: mtl) ++ rest ∧
      subIPAux pw l = pre ++ ipTok ++ subIPAux true rest ∧
      pwAfter pw pre = false ∧ m0.isDigit = true ∧ noWordAhead rest = true := by
  intro n
  induction n with
  | zero =>
      intro pw l h1
      rw [List.length_eq_zero.mp (Nat.le_zero.mp h1)]
      exact Or.inl rfl
  | succ n ih =>
      intro pw l h1
      cases l with
      | nil => exact Or.inl rfl
      | cons c cs =>
          rw [subIP_cons]
          cases hk : ipSpan c cs with
          | some k =>
              simp only
              by_cases hc : (!pw && noWordAhead (cs.drop k))
              · rw [if_pos hc]
                simp only [Bool.and_eq_true, Bool.not_eq_true'] at hc
                refine Or.inr ⟨[], c, cs.take k, cs.drop k,
                  by simp [List.take_append_drop], rfl, hc.1,
                  ipSpan_head c cs k hk, hc.2⟩
              · rw [if_neg hc]
                rcases ih (isWordChar c) cs (by simp at h1; omega) with
                  hid | ⟨pre, m0, mtl, rest, hsplit, hout, hpw, hm0, hnw⟩
                · rw [hid]
                  exact Or.inl rfl
                · refine Or.inr ⟨c :: pre, m0, mtl, rest, by simp [hsplit], ?_,
                    by rw [pwAfter_cons]; exact hpw, hm0, hnw⟩
                  rw [hout]
                  rfl
          | none =>
              simp only
              rcases ih (isWordChar c) cs (by simp at h1; omega) with
                hid | ⟨pre, m0, mtl, rest, hsplit, hout, hpw, hm0, hnw⟩
              · rw [hid]
                exact Or.inl rfl
              · refine Or.inr ⟨c :: pre, m0, mtl, rest, by simp [hsplit], ?_,
                  by rw [pwAfter_cons]; exact hpw, hm0, hnw⟩
                rw [hout]
                rfl

theorem subNum_outshape : ∀ (n : Nat) (pw : Bool) (l : List Char), l.length ≤ n →
    subNumAux pw l = l ∨
    ∃ pre m0 mtl rest, l = pre ++ (m0 :: mtl) ++ rest ∧
      subNumAux pw l = pre ++ numTok ++ subNumAux true rest ∧
      pwAfter pw pre = false ∧ m0.isDigit = true ∧ noWordAhead rest = true := by
  intro n
  induction n with
  | zero =>
      intro pw l h1
      rw [List.length_eq_zero.mp (Nat.le_zero.mp h1)]
      exact Or.inl rfl
  | succ n ih =>
      intro pw l h1
      cases l with
      | nil => exact Or.inl rfl
      | cons c cs =>
          rw [subNum_cons]
          by_cases hc : (!pw && c.isDigit && noWordAhead (cs.drop (digitSpan cs)))
          · rw [if_pos hc]
            simp only [Bool.and_eq_true, Bool.not_eq_true'] at hc
            refine Or.inr ⟨[], c, cs.take (digitSpan cs), cs.drop (digitSpan cs),
              by simp [List.take_append_drop], rfl, hc.1.1, hc.1.2, hc.2⟩
          · rw [if_neg hc]
            rcases ih (isWordChar c) cs (by simp at h1; omega) with
              hid | ⟨pre, m0, mtl, rest, hsplit, hout, hpw, hm0, hnw⟩
            · rw [hid]
              exact Or.inl rfl
            · refine Or.inr ⟨c :: pre, m0, mtl, rest, by simp [hsplit], ?_,
                by rw [pwAfter_cons]; exact hpw, hm0, hnw⟩
              rw [hout]
              rfl

/-! ### Walking a replacement token leaves every pattern matchless -/

theorem subUUID_cons_true (x : Char) (xs : List Char) :
    subUUIDAux true (x :: xs) = x :: subUUIDAux (isWordChar x) xs := by
  rw [subUUID_cons]
  simp

theorem subIP_cons_true (x : Char) (xs : List Char) :
    subIPAux true (x :: xs) = x :: subIPAux (isWordChar x) xs := by
  rw [subIP_cons]
  cases ipSpan x xs <;> simp

theorem subNum_cons_true (x : Char) (xs : List Char) :
    subNumAux true (x :: xs) = x :: subNumAux (isWordChar x) xs := by
  rw [subNum_cons]
  simp

theorem checkDate_false_of_nondigit (c : Char) (t : List Char) (hc : c.isDigit = false) :
    checkDate (c :: t) = false := by
  by_cases h : checkDate (c :: t)
  · exact absurd (checkDate_head c t h) (by simp [hc])
  · simpa using h

theorem checkTime_false_of_nondigit (c : Char) (t : List Char) (hc : c.isDigit = false) :
    checkTime (c :: t) = false := by
  by_cases h : checkTime (c :: t)
  · exact absurd (checkTime_head c t h) (by simp [hc])
  · simpa using h

theorem checkUUID_false_of_nonhex (c : Char) (t : List Char) (hc : isHexLower c = false) :
    checkUUIDList (c :: t) = false := by
  by_cases h : checkUUIDList (c :: t)
  · exact absurd (checkUUID_head c t h) (by simp [hc])
  · simpa using h

theorem ipSpan_none_of_nondigit (c : Char) (t : List Char) (hc : c.isDigit = false) :
    ipSpan c t = none := by
  simp [ipSpan, hc]

theorem noDateScan_append_nondigit (tok t : List Char)
    (h1 : ∀ x ∈ tok, x.isDigit = false) (h2 : noDateScan t = true) :
    noDateScan (tok ++ t) = true := by
  induction tok with
  | nil => exact h2
  | cons c tokr ih =>
      have hc : c.isDigit = false := h1 c (by simp)
      simp only [List.cons_append, noDateScan, Bool.and_eq_true, Bool.not_eq_true']
      exact ⟨checkDate_false_of_nondigit c _ hc, ih (fun x hx => h1 x (by simp [hx]))⟩

theorem noTimeScan_append_nondigit (tok t : List Char)
    (h1 : ∀ x ∈ tok, x.isDigit = false) (h2 : noTimeScan t = true) :
    noTimeScan (tok ++ t) = true := by
  induction tok with
  | nil => exact h2
  | cons c tokr ih =>
      have hc : c.isDigit = false := h1 c (by simp)
      simp only [List.cons_append, noTimeScan, Bool.and_eq_true, Bool.not_eq_true']
      exact ⟨checkTime_false_of_nondigit c _ hc, ih (fun x hx => h1 x (by simp [hx]))⟩

theorem noUUIDScan_append_nonhex (tok : List Char) : ∀ (pw : Bool) (t : List Char),
    (∀ x ∈ tok, isHexLower x = false) → noUUIDScan (pwAfter pw tok) t = true →
    noUUIDScan pw (tok ++ t) = true := by
  induction tok with
  | nil => intro pw t _ h2; exact h2
  | cons c tokr ih =>
      intro pw t h1 h2
      have hc : isHexLower c = false := h1 c (by simp)
      simp only [List.cons_append, noUUIDScan, Bool.and_eq_true, Bool.not_eq_true']
      constructor
      · simp [checkUUID_false_of_nonhex c _ hc]
      · rw [pwAfter_cons] at h2
        exact ih (isWordChar c) t (fun x hx => h1 x (by simp [hx])) h2

theorem noIPScan_append_nondigit (tok : List Char) : ∀ (pw : Bool) (t : List Char),
    (∀ x ∈ tok, x.isDigit = false) → noIPScan (pwAfter pw tok) t = true →
    noIPScan pw (tok ++ t) = true := by
  induction tok with
  | nil => intro pw t _ h2; exact h2
  | cons c tokr ih =>
      intro pw t h1 h2
      have hc : c.isDigit = false := h1 c (by simp)
      simp only [List.cons_append, noIPScan, Bool.and_eq_true]
      constructor
      · rw [ipSpan_none_of_nondigit c _ hc]
      · rw [pwAfter_cons] at h2
        exact ih (isWordChar c) t (fun x hx => h1 x (by simp [hx])) h2

theorem noNumScan_append_nondigit (tok : List Char) : ∀ (pw : Bool) (t : List Char),
    (∀ x ∈ tok, x.isDigit = false) → noNumScan (pwAfter pw tok) t = true →
    noNumScan pw (tok ++ t) = true := by
  induction tok with
  | nil => intro pw t _ h2; exact h2
  | cons c tokr ih =>
      intro pw t h1 h2
      have hc : c.isDigit = false := h1 c (by simp)
      simp only [List.cons_append, noNumScan, Bool.and_eq_true, Bool.not_eq_true']
      constructor
      · simp [hc]
      · rw [pwAfter_cons] at h2
        exact ih (isWordChar c) t (fun x hx => h1 x (by simp [hx])) h2

/-! ### Self-stability: each scanner's output has no match of its own pattern -/

theorem subDate_noDate : ∀ (n : Nat) (l : List Char), l.length ≤ n →
    noDateScan (subDate l) = true := by
  intro n
  induction n with
  | zero =>
      intro l h1
      rw [List.length_eq_zero.mp (Nat.le_zero.mp h1)]
      rfl
  | succ n ih =>
      intro l h1
      cases l with
      | nil => rfl
      | cons c cs =>
          have hcs : cs.length ≤ n := by simp at h1; omega
          rw [subDate_cons]
          by_cases hc : checkDate (c :: cs)
          · rw [if_pos hc]
            refine noDateScan_append_nondigit dateTok _ (by decide) ?_
            exact ih (cs.drop 9)
              (le_trans (by rw [List.length_drop]; exact Nat.sub_le _ _) hcs)
          · rw [if_neg hc]
            simp only [noDateScan, Bool.and_eq_true, Bool.not_eq_true']
            refine ⟨?_, ih cs hcs⟩
            by_cases hck : checkDate (c :: subDate cs)
            swap
            · simpa using hck
            exfalso
            obtain ⟨y1, y2, y3, y4, m1, m2, d1, d2, rest', heq, hy1, hy2, hy3, hy4,
              hm1, hm2, hdd1, hdd2⟩ := checkDate_sound _ hck
            rw [List.cons.injEq] at heq
            obtain ⟨hcy, htail⟩ := heq
            subst hcy
            have hnine : ∀ x ∈ ([y2, y3, y4, '-', m1, m2, '-', d1, d2] : List Char),
                x.isDigit = true ∨ x = '-' := by
              intro x hx
              simp at hx
              rcases hx with rfl | rfl | rfl | rfl | rfl | rfl | rfl | rfl | rfl
              · exact Or.inl hy2
              · exact Or.inl hy3
              · exact Or.inl hy4
              · exact Or.inr rfl
              · exact Or.inl hm1
              · exact Or.inl hm2
              · exact Or.inr rfl
              · exact Or.inl hdd1
              · exact Or.inl hdd2
            have htail9 : subDate cs =
                ([y2, y3, y4, '-', m1, m2, '-', d1, d2] : List Char) ++ rest' := by
              rw [htail]
              rfl
            rcases subDate_outshape n cs hcs with hid | ⟨pre, mid, rest, hsplit, hout⟩
            · rw [hid] at htail
              apply hc
              rw [htail]
              exact checkDate_complete c y2 y3 y4 m1 m2 d1 d2 rest' hy1 hy2 hy3 hy4
                hm1 hm2 hdd1 hdd2
            · have hEq : ([y2, y3, y4, '-', m1, m2, '-', d1, d2] : List Char) ++ rest' =
                  pre ++ (dateTok ++ subDate rest) :=
                htail9.symm.trans (hout.trans (List.append_assoc pre dateTok _))
              rcases List.append_eq_append_iff.mp hEq with ⟨e, hpre, _⟩ | ⟨e, hnine2, hrest⟩
              · apply hc
                have hcseq : c :: cs = c :: y2 :: y3 :: y4 :: '-' :: m1 :: m2 :: '-' ::
                    d1 :: d2 :: (e ++ (mid ++ rest)) := by
                  rw [hsplit, hpre]
                  simp
                rw [hcseq]
                exact checkDate_complete c y2 y3 y4 m1 m2 d1 d2 _ hy1 hy2 hy3 hy4
                  hm1 hm2 hdd1 hdd2
              · cases e with
                | nil =>
                    apply hc
                    simp only [List.append_nil] at hnine2
                    have hcseq : c :: cs = c :: y2 :: y3 :: y4 :: '-' :: m1 :: m2 :: '-' ::
                        d1 :: d2 :: (mid ++ rest) := by
                      rw [hsplit, ← hnine2]
                      rfl
                    rw [hcseq]
                    exact checkDate_complete c y2 y3 y4 m1 m2 d1 d2 _ hy1 hy2 hy3 hy4
                      hm1 hm2 hdd1 hdd2
                | cons e0 etl =>
                    have he0 : e0 = '<' := by
                      have := hrest
                      rw [List.cons_append] at this
                      have h0 := congrArg List.head? this
                      simp [dateTok] at h0
                      exact h0.symm
                    have hmem : e0 ∈ ([y2, y3, y4, '-', m1, m2, '-', d1, d2] : List Char) := by
                      rw [hnine2]
                      exact List.mem_append_right pre (by simp)
                    rcases hnine e0 hmem with hdig | hdash
                    · rw [he0] at hdig
                      simp at hdig
                    · rw [he0] at hdash
                      simp at hdash

/-! ### Transfer of a head match from scanner output back to input -/

theorem checkDate_transfer (c : Char) (cs out' : List Char)
    (hck : checkDate (c :: out') = true)
    (hshape : out' = cs ∨ ∃ pre rest2 rest3, out' = pre ++ rest2 ∧ cs = pre ++ rest3 ∧
      rest2.head? = some '<') :
    checkDate (c :: cs) = true := by
  rcases hshape with hid | ⟨pre, rest2, rest3, hout, hcs, hhead⟩
  · rw [← hid]
    exact hck
  obtain ⟨y1, y2, y3, y4, m1, m2, d1, d2, rest', heq, hy1, hy2, hy3, hy4,
    hm1, hm2, hdd1, hdd2⟩ := checkDate_sound _ hck
  rw [List.cons.injEq] at heq
  obtain ⟨hcy, htail⟩ := heq
  subst hcy
  have hnine : ∀ x ∈ ([y2, y3, y4, '-', m1, m2, '-', d1, d2] : List Char),
      x.isDigit = true ∨ x = '-' := by
    intro x hx
    simp at hx
    rcases hx with rfl | rfl | rfl | rfl | rfl | rfl | rfl | rfl | rfl
    · exact Or.inl hy2
    · exact Or.inl hy3
    · exact Or.inl hy4
    · exact Or.inr rfl
    · exact Or.inl hm1
    · exact Or.inl hm2
    · exact Or.inr rfl
    · exact Or.inl hdd1
    · exact Or.inl hdd2
  have htail9 : out' = ([y2, y3, y4, '-', m1, m2, '-', d1, d2] : List Char) ++ rest' := by
    rw [htail]
    rfl
  have hEq : ([y2, y3, y4, '-', m1, m2, '-', d1, d2] : List Char) ++ rest' =
      pre ++ rest2 := htail9.symm.trans hout
  rcases List.append_eq_append_iff.mp hEq with ⟨e, hpre, _⟩ | ⟨e, hnine2, hrest⟩
  · have hcseq : c :: cs = c :: y2 :: y3 :: y4 :: '-' :: m1 :: m2 :: '-' ::
        d1 :: d2 :: (e ++ rest3) := by
      rw [hcs, hpre]
      simp
    rw [hcseq]
    exact checkDate_complete c y2 y3 y4 m1 m2 d1 d2 _ hy1 hy2 hy3 hy4 hm1 hm2 hdd1 hdd2
  · cases e with
    | nil =>
        simp only [List.append_nil] at hnine2
        have hcseq : c :: cs = c :: y2 :: y3 :: y4 :: '-' :: m1 :: m2 :: '-' ::
            d1 :: d2 :: rest3 := by
          rw [hcs, ← hnine2]
          rfl
        rw [hcseq]
        exact checkDate_complete c y2 y3 y4 m1 m2 d1 d2 _ hy1 hy2 hy3 hy4 hm1 hm2 hdd1 hdd2
    | cons e0 etl =>
        exfalso
        have he0 : e0 = '<' := by
          have h0 := congrArg List.head? hrest
          rw [hhead] at h0
          simp at h0
          exact h0.symm
        have hmem : e0 ∈ ([y2, y3, y4, '-', m1, m2, '-', d1, d2] : List Char) := by
          rw [hnine2]
          exact List.mem_append_right pre (by simp)
        rcases hnine e0 hmem with hdig | hdash
        · rw [he0] at hdig
          simp at hdig
        · rw [he0] at hdash
          simp at hdash

theorem checkTime_transfer (c : Char) (cs out' : List Char)
    (hck : checkTime (c :: out') = true)
    (hshape : out' = cs ∨ ∃ pre rest2 rest3, out' = pre ++ rest2 ∧ cs = pre ++ rest3 ∧
      rest2.head? = some '<') :
    checkTime (c :: cs) = true := by
  rcases hshape with hid | ⟨pre, rest2, rest3, hout, hcs, hhead⟩
  · rw [← hid]
    exact hck
  obtain ⟨a1, a2, b1, b2, c1, c2, rest', heq, ha1, ha2, hb1, hb2, hc1, hc2⟩ :=
    checkTime_sound _ hck
  rw [List.cons.injEq] at heq
  obtain ⟨hcy, htail⟩ := heq
  subst hcy
  have hseven : ∀ x ∈ ([a2, ':', b1, b2, ':', c1, c2] : List Char),
      x.isDigit = true ∨ x = ':' := by
    intro x hx
    simp at hx
    rcases hx with rfl | rfl | rfl | rfl | rfl | rfl | rfl
    · exact Or.inl ha2
    · exact Or.inr rfl
    · exact Or.inl hb1
    · exact Or.inl hb2
    · exact Or.inr rfl
    · exact Or.inl hc1
    · exact Or.inl hc2
  have htail7 : out' = ([a2, ':', b1, b2, ':', c1, c2] : List Char) ++ rest' := by
    rw [htail]
    rfl
  have hEq : ([a2, ':', b1, b2, ':', c1, c2] : List Char) ++ rest' = pre ++ rest2 :=
    htail7.symm.trans hout
  rcases List.append_eq_append_iff.mp hEq with ⟨e, hpre, _⟩ | ⟨e, hnine2, hrest⟩
  · have hcseq : c :: cs = c :: a2 :: ':' :: b1 :: b2 :: ':' :: c1 :: c2 ::
        (e ++ rest3) := by
      rw [hcs, hpre]
      simp
    rw [hcseq]
    exact checkTime_complete c a2 b1 b2 c1 c2 _ ha1 ha2 hb1 hb2 hc1 hc2
  · cases e with
    | nil =>
        simp only [List.append_nil] at hnine2
        have hcseq : c :: cs = c :: a2 :: ':' :: b1 :: b2 :: ':' :: c1 :: c2 :: rest3 := by
          rw [hcs, ← hnine2]
          rfl
        rw [hcseq]
        exact checkTime_complete c a2 b1 b2 c1 c2 _ ha1 ha2 hb1 hb2 hc1 hc2
    | cons e0 etl =>
        exfalso
        have he0 : e0 = '<' := by
          have h0 := congrArg List.head? hrest
          rw [hhead] at h0
          simp at h0
          exact h0.symm
        have hmem : e0 ∈ ([a2, ':', b1, b2, ':', c1, c2] : List Char) := by
          rw [hnine2]
          exact List.mem_append_right pre (by simp)
        rcases hseven e0 hmem with hdig | hcol
        · rw [he0] at hdig
          simp at hdig
        · rw [he0] at hcol
          simp at hcol

theorem pwAfter_append (pw : Bool) (a b : List Char) (hb : b ≠ []) :
    pwAfter pw (a ++ b) = pwAfter pw b := by
  unfold pwAfter
  rw [List.getLast?_append]
  cases hl : b.getLast? with
  | none => exact absurd (List.getLast?_eq_none.mp hl) hb
  | some x => rfl

theorem pwAfter_true_of_word (pw : Bool) (l : List Char) (hne : l ≠ [])
    (hw : ∀ x ∈ l, isWordChar x = true) : pwAfter pw l = true := by
  unfold pwAfter
  cases hl : l.getLast? with
  | none => exact absurd (List.getLast?_eq_none.mp hl) hne
  | some x => exact hw x (List.mem_of_mem_getLast? (by simp [hl]))

theorem nonword_nondigit (c : Char) (h : isWordChar c = false) : c.isDigit = false := by
  by_cases hd : c.isDigit
  · exact absurd (digit_isWord c hd) (by simp [h])
  · simpa using hd

theorem nonword_nonhex (c : Char) (h : isWordChar c = false) : isHexLower c = false := by
  by_cases hd : isHexLower c
  · exact absurd (hex_isWord c hd) (by simp [h])
  · simpa using hd

theorem takeWhile_digit_append (d rest : List Char) (hd : ∀ x ∈ d, x.isDigit = true)
    (hr : ∀ r rs, rest = r :: rs → r.isDigit = false) :
    (d ++ rest).takeWhile Char.isDigit = d := by
  induction d with
  | nil =>
      cases rest with
      | nil => rfl
      | cons r rs => simp [List.takeWhile_cons_of_neg, hr r rs rfl]
  | cons c cs ih =>
      have hc : c.isDigit = true := hd c (by simp)
      rw [List.cons_append, List.takeWhile_cons_of_pos hc,
        ih (fun x hx => hd x (by simp [hx]))]

/-! ### Dropping a prefix preserves match-freeness (with `pw := true` for
the boundary scans: a true `pw` only relaxes the first position) -/

theorem noDateScan_drop : ∀ (l : List Char) (k : Nat),
    noDateScan l = true → noDateScan (l.drop k) = true := by
  intro l
  induction l with
  | nil => intro k _; simp [noDateScan]
  | cons c cs ih =>
      intro k h
      simp only [noDateScan, Bool.and_eq_true] at h
      cases k with
      | zero => simp only [List.drop_zero, noDateScan, Bool.and_eq_true]; exact h
      | succ k => exact ih k h.2

theorem noTimeScan_drop : ∀ (l : List Char) (k : Nat),
    noTimeScan l = true → noTimeScan (l.drop k) = true := by
  intro l
  induction l with
  | nil => intro k _; simp [noTimeScan]
  | cons c cs ih =>
      intro k h
      simp only [noTimeScan, Bool.and_eq_true] at h
      cases k with
      | zero => simp only [List.drop_zero, noTimeScan, Bool.and_eq_true]; exact h
      | succ k => exact ih k h.2

theorem noUUIDScan_true_tail (c : Char) (cs : List Char) :
    noUUIDScan true (c :: cs) = noUUIDScan (isWordChar c) cs := by
  simp [noUUIDScan]

theorem noUUIDScan_mono (l : List Char) (pw : Bool) (h : noUUIDScan pw l = true) :
    noUUIDScan true l = true := by
  cases l with
  | nil => rfl
  | cons c cs =>
      rw [noUUIDScan_true_tail]
      simp only [noUUIDScan, Bool.and_eq_true] at h
      exact h.2

theorem noUUIDScan_drop : ∀ (l : List Char) (k : Nat) (pw : Bool),
    noUUIDScan pw l = true → noUUIDScan true (l.drop k) = true := by
  intro l
  induction l with
  | nil => intro k pw _; simp [noUUIDScan]
  | cons c cs ih =>
      intro k pw h
      cases k with
      | zero => exact noUUIDScan_mono _ pw h
      | succ k =>
          simp only [noUUIDScan, Bool.and_eq_true] at h
          exact ih k (isWordChar c) h.2

theorem noIPScan_true_tail (c : Char) (cs : List Char) :
    noIPScan true (c :: cs) = noIPScan (isWordChar c) cs := by
  simp only [noIPScan]
  cases ipSpan c cs <;> simp

theorem noIPScan_mono (l : List Char) (pw : Bool) (h : noIPScan pw l = true) :
    noIPScan true l = true := by
  cases l with
  | nil => rfl
  | cons c cs =>
      rw [noIPScan_true_tail]
      simp only [noIPScan, Bool.and_eq_true] at h
      exact h.2

theorem noIPScan_drop : ∀ (l : List Char) (k : Nat) (pw : Bool),
    noIPScan pw l = true → noIPScan true (l.drop k) = true := by
  intro l
  induction l with
  | nil => intro k pw _; simp [noIPScan]
  | cons c cs ih =>
      intro k pw h
      cases k with
      | zero => exact noIPScan_mono _ pw h
      | succ k =>
          simp only [noIPScan, Bool.and_eq_true] at h
          exact ih k (isWordChar c) h.2

theorem noNumScan_true_tail (c : Char) (cs : List Char) :
    noNumScan true (c :: cs) = noNumScan (isWordChar c) cs := by
  simp [noNumScan]

theorem noNumScan_mono (l : List Char) (pw : Bool) (h : noNumScan pw l = true) :
    noNumScan true l = true := by
  cases l with
  | nil => rfl
  | cons c cs =>
      rw [noNumScan_true_tail]
      simp only [noNumScan, Bool.and_eq_true] at h
      exact h.2

theorem noNumScan_drop : ∀ (l : List Char) (k : Nat) (pw : Bool),
    noNumScan pw l = true → noNumScan true (l.drop k) = true := by
  intro l
  induction l with
  | nil => intro k pw _; simp [noNumScan]
  | cons c cs ih =>
      intro k pw h
      cases k with
      | zero => exact noNumScan_mono _ pw h
      | succ k =>
          simp only [noNumScan, Bool.and_eq_true] at h
          exact ih k (isWordChar c) h.2

/-! ### `pw`-irrelevance when the head character cannot start a match -/

theorem noUUIDScan_head_nonhex (pw pw' : Bool) (x : Char) (xs : List Char)
    (hx : isHexLower x = false) : noUUIDScan pw (x :: xs) = noUUIDScan pw' (x :: xs) := by
  simp [noUUIDScan, checkUUID_false_of_nonhex x xs hx]

theorem noIPScan_head_nondigit (pw pw' : Bool) (x : Char) (xs : List Char)
    (hx : x.isDigit = false) : noIPScan pw (x :: xs) = noIPScan pw' (x :: xs) := by
  simp [noIPScan, ipSpan_none_of_nondigit x xs hx]

theorem noNumScan_head_nondigit (pw pw' : Bool) (x : Char) (xs : List Char)
    (hx : x.isDigit = false) : noNumScan pw (x :: xs) = noNumScan pw' (x :: xs) := by
  simp [noNumScan, hx]

/-! ### Transfer of boundary-pattern head matches from output back to input -/

theorem numCond_transfer (pw : Bool) (c : Char) (cs out' : List Char)
    (hout : (!pw && c.isDigit && noWordAhead (out'.drop (digitSpan out'))) = true)
    (hshape : out' = cs ∨ ∃ pre rest2 rest3, out' = pre ++ rest2 ∧ cs = pre ++ rest3 ∧
      pwAfter (isWordChar c) pre = false) :
    (!pw && c.isDigit && noWordAhead (cs.drop (digitSpan cs))) = true := by
  rcases hshape with hid | ⟨pre, rest2, rest3, hout', hcs, hpwA⟩
  · rw [← hid]
    exact hout
  simp only [Bool.and_eq_true, Bool.not_eq_true'] at hout
  obtain ⟨⟨hnpw, hcd⟩, htr⟩ := hout
  cases hs : pre.dropWhile Char.isDigit with
  | nil =>
      exfalso
      have hall : ∀ x ∈ pre, x.isDigit = true := List.dropWhile_eq_nil_iff.mp hs
      cases pre with
      | nil =>
          have : pwAfter (isWordChar c) ([] : List Char) = isWordChar c := rfl
          rw [this, digit_isWord c hcd] at hpwA
          cases hpwA
      | cons p ps =>
          rw [pwAfter_true_of_word (isWordChar c) (p :: ps) (by simp)
            (fun x hx => digit_isWord x (hall x hx))] at hpwA
          cases hpwA
  | cons s0 s' =>
      have hs0 : s0.isDigit = false := dropWhile_head_not Char.isDigit pre s0 s' hs
      have hpre : pre = pre.takeWhile Char.isDigit ++ (s0 :: s') := by
        rw [← hs]
        exact (List.takeWhile_append_dropWhile Char.isDigit pre).symm
      have hrdig : ∀ x ∈ pre.takeWhile Char.isDigit, x.isDigit = true :=
        fun x hx => List.mem_takeWhile_imp hx
      have houtsplit : out' = pre.takeWhile Char.isDigit ++ (s0 :: (s' ++ rest2)) := by
        conv_lhs => rw [hout', hpre]
        simp
      have hcssplit : cs = pre.takeWhile Char.isDigit ++ (s0 :: (s' ++ rest3)) := by
        conv_lhs => rw [hcs, hpre]
        simp
      have hstop2 : ∀ r rs, (s0 :: (s' ++ rest2) : List Char) = r :: rs →
          r.isDigit = false := by
        intro r rs h0
        rw [List.cons.injEq] at h0
        rw [← h0.1]
        exact hs0
      have hstop3 : ∀ r rs, (s0 :: (s' ++ rest3) : List Char) = r :: rs →
          r.isDigit = false := by
        intro r rs h0
        rw [List.cons.injEq] at h0
        rw [← h0.1]
        exact hs0
      have hd2 : out'.drop (digitSpan out') = s0 :: (s' ++ rest2) := by
        rw [drop_digitSpan, houtsplit]
        exact dropWhile_digit_append _ _ hrdig hstop2
      have hd3 : cs.drop (digitSpan cs) = s0 :: (s' ++ rest3) := by
        rw [drop_digitSpan, hcssplit]
        exact dropWhile_digit_append _ _ hrdig hstop3
      rw [hd2] at htr
      simp only [noWordAhead] at htr
      simp only [Bool.and_eq_true, Bool.not_eq_true']
      refine ⟨⟨hnpw, hcd⟩, ?_⟩
      rw [hd3]
      simpa [noWordAhead] using htr

theorem ipCond_transfer (c : Char) (cs out' : List Char) (k : Nat)
    (hk : ipSpan c out' = some k)
    (htr : noWordAhead (out'.drop k) = true)
    (hshape : out' = cs ∨ ∃ pre rest2 rest3, out' = pre ++ rest2 ∧ cs = pre ++ rest3 ∧
      rest2.head? = some '<' ∧ pwAfter (isWordChar c) pre = false) :
    ∃ k', ipSpan c cs = some k' ∧ noWordAhead (cs.drop k') = true := by
  rcases hshape with hid | ⟨pre, rest2, rest3, hout', hcs, hhead, hpwA⟩
  · exact ⟨k, by rw [← hid]; exact hk, by rw [← hid]; exact htr⟩
  obtain ⟨d1, d2, d3, d4, restI, hsplit, hkval, hcd, x1, n2, x2, n3, x3, n4, x4,
    hr, hdropk⟩ := ipSpan_sound c out' k hk
  rw [hdropk] at htr
  have hD : out' = (d1 ++ '.' :: (d2 ++ '.' :: (d3 ++ '.' :: d4))) ++ restI := by
    rw [hsplit]
    simp
  have hlen : (d1 ++ '.' :: (d2 ++ '.' :: (d3 ++ '.' :: d4))).length = k := by
    simp only [List.length_append, List.length_cons]
    omega
  have hpwD : pwAfter (isWordChar c) (d1 ++ '.' :: (d2 ++ '.' :: (d3 ++ '.' :: d4))) =
      true := by
    have hsplit4 : d1 ++ '.' :: (d2 ++ '.' :: (d3 ++ '.' :: d4)) =
        (d1 ++ '.' :: (d2 ++ '.' :: (d3 ++ ['.']))) ++ d4 := by
      simp
    rw [hsplit4, pwAfter_append _ _ d4 n4]
    exact pwAfter_true_of_word _ d4 n4 (fun x hx => digit_isWord x (x4 x hx))
  have hEq : (d1 ++ '.' :: (d2 ++ '.' :: (d3 ++ '.' :: d4))) ++ restI = pre ++ rest2 :=
    hD.symm.trans hout'
  rcases List.append_eq_append_iff.mp hEq with ⟨e, hpre, hrI⟩ | ⟨e, hDe, hrest2⟩
  · cases e with
    | nil =>
        exfalso
        simp only [List.append_nil] at hpre
        rw [hpre, hpwD] at hpwA
        cases hpwA
    | cons e0 etl =>
        have hrestI : restI = e0 :: (etl ++ rest2) := by
          rw [hrI]
          rfl
        have he0d : e0.isDigit = false := hr e0 (etl ++ rest2) hrestI
        have he0w : isWordChar e0 = false := by
          rw [hrestI] at htr
          simpa [noWordAhead] using htr
        have hcsD : cs = (d1 ++ '.' :: (d2 ++ '.' :: (d3 ++ '.' :: d4))) ++
            (e0 :: (etl ++ rest3)) := by
          rw [hcs, hpre]
          simp
        have hcsform : cs = d1 ++ '.' :: (d2 ++ '.' :: (d3 ++ '.' ::
            (d4 ++ (e0 :: (etl ++ rest3))))) := by
          rw [hcsD]
          simp
        refine ⟨k, ?_, ?_⟩
        · rw [hcsform, ipSpan_complete c d1 d2 d3 d4 (e0 :: (etl ++ rest3)) hcd x1 n2 x2
            n3 x3 n4 x4 ?_]
          · rw [hkval]
          · intro r rs h0
            rw [List.cons.injEq] at h0
            rw [← h0.1]
            exact he0d
        · rw [hcsD, ← hlen, List.drop_left]
          simpa [noWordAhead] using he0w
  · cases e with
    | nil =>
        exfalso
        simp only [List.append_nil] at hDe
        rw [← hDe, hpwD] at hpwA
        cases hpwA
    | cons e0 etl =>
        exfalso
        have he0 : e0 = '<' := by
          have h0 := congrArg List.head? hrest2
          rw [hhead] at h0
          simp at h0
          exact h0.symm
        have hmem : e0 ∈ d1 ++ '.' :: (d2 ++ '.' :: (d3 ++ '.' :: d4)) := by
          rw [hDe]
          exact List.mem_append_right pre (by simp)
        have hclass : e0.isDigit = true ∨ e0 = '.' := by
          simp only [List.mem_append, List.mem_cons] at hmem
          rcases hmem with h | h | h | h | h | h | h <;>
            first
              | exact Or.inr h
              | exact Or.inl (x1 _ h)
              | exact Or.inl (x2 _ h)
              | exact Or.inl (x3 _ h)
              | exact Or.inl (x4 _ h)
        subst he0
        rcases hclass with h | h
        · simp at h
        · exact absurd h (by decide)

theorem uuidCond_transfer (c : Char) (cs out' : List Char)
    (hck : checkUUIDList (c :: out') = true)
    (htr : noWordAhead (out'.drop 35) = true)
    (hshape : out' = cs ∨ ∃ pre rest2 rest3, out' = pre ++ rest2 ∧ cs = pre ++ rest3 ∧
      rest2.head? = some '<' ∧ pwAfter (isWordChar c) pre = false) :
    checkUUIDList (c :: cs) = true ∧ noWordAhead (cs.drop 35) = true := by
  rcases hshape with hid | ⟨pre, rest2, rest3, hout', hcs, hhead, hpwA⟩
  · rw [← hid]
    exact ⟨hck, htr⟩
  obtain ⟨h8, h4a, h4b, h4c, h12, restU, heq, hl8, hl4a, hl4b, hl4c, hl12,
    hx8, hx4a, hx4b, hx4c, hx12⟩ := checkUUID_sound _ hck
  cases h8 with
  | nil => simp at hl8
  | cons hh h8t =>
  rw [List.cons_append, List.cons.injEq] at heq
  obtain ⟨hc_eq, htail⟩ := heq
  subst hc_eq
  have hl8t : h8t.length = 7 := by simpa using hl8
  have h12ne : h12 ≠ [] := by
    intro h0
    rw [h0] at hl12
    simp at hl12
  have hBsplit : out' = (h8t ++ '-' :: (h4a ++ '-' :: (h4b ++ '-' :: (h4c ++ '-' ::
      h12)))) ++ restU := by
    rw [htail]
    simp
  have hBlen : (h8t ++ '-' :: (h4a ++ '-' :: (h4b ++ '-' :: (h4c ++ '-' ::
      h12)))).length = 35 := by
    simp only [List.length_append, List.length_cons]
    omega
  have hdrop : out'.drop 35 = restU := by
    rw [hBsplit, ← hBlen, List.drop_left]
  rw [hdrop] at htr
  have hBmem : ∀ x ∈ h8t ++ '-' :: (h4a ++ '-' :: (h4b ++ '-' :: (h4c ++ '-' :: h12))),
      isHexLower x = true ∨ x = '-' := by
    intro x hx
    simp only [List.mem_append, List.mem_cons] at hx
    rcases hx with h | h | h | h | h | h | h | h | h <;>
      first
        | exact Or.inr h
        | exact Or.inl (hx8 x (List.mem_cons_of_mem c h))
        | exact Or.inl (hx4a x h)
        | exact Or.inl (hx4b x h)
        | exact Or.inl (hx4c x h)
        | exact Or.inl (hx12 x h)
  have hpwB : pwAfter (isWordChar c) (h8t ++ '-' :: (h4a ++ '-' :: (h4b ++ '-' ::
      (h4c ++ '-' :: h12)))) = true := by
    have hsp : h8t ++ '-' :: (h4a ++ '-' :: (h4b ++ '-' :: (h4c ++ '-' :: h12))) =
        (h8t ++ '-' :: (h4a ++ '-' :: (h4b ++ '-' :: (h4c ++ ['-'])))) ++ h12 := by
      simp
    rw [hsp, pwAfter_append _ _ h12 h12ne]
    exact pwAfter_true_of_word _ h12 h12ne (fun x hx => hex_isWord x (hx12 x hx))
  have hEq : (h8t ++ '-' :: (h4a ++ '-' :: (h4b ++ '-' :: (h4c ++ '-' :: h12)))) ++
      restU = pre ++ rest2 := hBsplit.symm.trans hout'
  rcases List.append_eq_append_iff.mp hEq with ⟨e, hpre, hrU⟩ | ⟨e, hBe, hrest2⟩
  · cases e with
    | nil =>
        exfalso
        simp only [List.append_nil] at hpre
        rw [hpre, hpwB] at hpwA
        cases hpwA
    | cons e0 etl =>
        have hrestU : restU = e0 :: (etl ++ rest2) := by
          rw [hrU]
          rfl
        have he0w : isWordChar e0 = false := by
          rw [hrestU] at htr
          simpa [noWordAhead] using htr
        have hcsB : cs = (h8t ++ '-' :: (h4a ++ '-' :: (h4b ++ '-' :: (h4c ++ '-' ::
            h12)))) ++ (e0 :: (etl ++ rest3)) := by
          rw [hcs, hpre]
          simp
        constructor
        · have hform : c :: cs = (c :: h8t) ++ '-' :: (h4a ++ '-' :: (h4b ++ '-' ::
              (h4c ++ '-' :: (h12 ++ (e0 :: (etl ++ rest3)))))) := by
            rw [hcsB]
            simp
          rw [hform]
          exact checkUUID_complete (c :: h8t) h4a h4b h4c h12 (e0 :: (etl ++ rest3))
            hl8 hl4a hl4b hl4c hl12 hx8 hx4a hx4b hx4c hx12
        · rw [hcsB, ← hBlen, List.drop_left]
          simpa [noWordAhead] using he0w
  · cases e with
    | nil =>
        exfalso
        simp only [List.append_nil] at hBe
        rw [← hBe, hpwB] at hpwA
        cases hpwA
    | cons e0 etl =>
        exfalso
        have he0 : e0 = '<' := by
          have h0 := congrArg List.head? hrest2
          rw [hhead] at h0
          simp at h0
          exact h0.symm
        have hmem : e0 ∈ h8t ++ '-' :: (h4a ++ '-' :: (h4b ++ '-' :: (h4c ++ '-' ::
            h12))) := by
          rw [hBe]
          exact List.mem_append_right pre (by simp)
        rcases hBmem e0 hmem with h | h
        · rw [he0] at h
          exact absurd h (by decide)
        · rw [he0] at h
          exact absurd h (by decide)

theorem subTime_noTime : ∀ (n : Nat) (l : List Char), l.length ≤ n →
    noTimeScan (subTime l) = true := by
  intro n
  induction n with
  | zero =>
      intro l h1
      rw [List.length_eq_zero.mp (Nat.le_zero.mp h1)]
      rfl
  | succ n ih =>
      intro l h1
      cases l with
      | nil => rfl
      | cons c cs =>
          have hcs : cs.length ≤ n := by simp at h1; omega
          rw [subTime_cons]
          by_cases hc : checkTime (c :: cs)
          · rw [if_pos hc]
            refine noTimeScan_append_nondigit timeTok _ (by decide) ?_
            exact ih (cs.drop 7)
              (le_trans (by rw [List.length_drop]; exact Nat.sub_le _ _) hcs)
          · rw [if_neg hc]
            simp only [noTimeScan, Bool.and_eq_true, Bool.not_eq_true']
            refine ⟨?_, ih cs hcs⟩
            by_cases hck : checkTime (c :: subTime cs)
            swap
            · simpa using hck
            exfalso
            apply hc
            refine checkTime_transfer c cs (subTime cs) hck ?_
            rcases subTime_outshape n cs hcs with hid | ⟨pre, mid, rest, hsplit, hout⟩
            · exact Or.inl hid
            · refine Or.inr ⟨pre, timeTok ++ subTime rest, mid ++ rest,
                hout.trans (List.append_assoc pre timeTok _), ?_, by simp [timeTok]⟩
              rw [hsplit, List.append_assoc]

/-! ### Preservation: later scanners leave earlier patterns matchless -/

theorem subTime_noDate : ∀ (n : Nat) (l : List Char), l.length ≤ n →
    noDateScan l = true → noDateScan (subTime l) = true := by
  intro n
  induction n with
  | zero =>
      intro l h1 _
      rw [List.length_eq_zero.mp (Nat.le_zero.mp h1)]
      rfl
  | succ n ih =>
      intro l h1 hd
      cases l with
      | nil => rfl
      | cons c cs =>
          have hcs : cs.length ≤ n := by simp at h1; omega
          simp only [noDateScan, Bool.and_eq_true, Bool.not_eq_true'] at hd
          rw [subTime_cons]
          by_cases hc : checkTime (c :: cs)
          · rw [if_pos hc]
            refine noDateScan_append_nondigit timeTok _ (by decide) ?_
            exact ih (cs.drop 7)
              (le_trans (by rw [List.length_drop]; exact Nat.sub_le _ _) hcs)
              (noDateScan_drop cs 7 hd.2)
          · rw [if_neg hc]
            simp only [noDateScan, Bool.and_eq_true, Bool.not_eq_true']
            refine ⟨?_, ih cs hcs hd.2⟩
            by_cases hck : checkDate (c :: subTime cs)
            swap
            · simpa using hck
            exfalso
            have hin : checkDate (c :: cs) = true := by
              refine checkDate_transfer c cs (subTime cs) hck ?_
              rcases subTime_outshape n cs hcs with hid | ⟨pre, mid, rest, hsplit, hout⟩
              · exact Or.inl hid
              · refine Or.inr ⟨pre, timeTok ++ subTime rest, mid ++ rest,
                  hout.trans (List.append_assoc pre timeTok _), ?_, by simp [timeTok]⟩
                rw [hsplit, List.append_assoc]
            rw [hd.1] at hin
            cases hin

theorem subUUID_noDate : ∀ (n : Nat) (pw : Bool) (l : List Char), l.length ≤ n →
    noDateScan l = true → noDateScan (subUUIDAux pw l) = true := by
  intro n
  induction n with
  | zero =>
      intro pw l h1 _
      rw [List.length_eq_zero.mp (Nat.le_zero.mp h1)]
      rfl
  | succ n ih =>
      intro pw l h1 hd
      cases l with
      | nil => rfl
      | cons c cs =>
          have hcs : cs.length ≤ n := by simp at h1; omega
          simp only [noDateScan, Bool.and_eq_true, Bool.not_eq_true'] at hd
          rw [subUUID_cons]
          by_cases hc : (!pw && checkUUIDList (c :: cs) && noWordAhead (cs.drop 35))
          · rw [if_pos hc]
            refine noDateScan_append_nondigit uuidTok _ (by decide) ?_
            exact ih true (cs.drop 35)
              (le_trans (by rw [List.length_drop]; exact Nat.sub_le _ _) hcs)
              (noDateScan_drop cs 35 hd.2)
          · rw [if_neg hc]
            simp only [noDateScan, Bool.and_eq_true, Bool.not_eq_true']
            refine ⟨?_, ih (isWordChar c) cs hcs hd.2⟩
            by_cases hck : checkDate (c :: subUUIDAux (isWordChar c) cs)
            swap
            · simpa using hck
            exfalso
            have hin : checkDate (c :: cs) = true := by
              refine checkDate_transfer c cs (subUUIDAux (isWordChar c) cs) hck ?_
              rcases subUUID_outshape n (isWordChar c) cs hcs with
                hid | ⟨pre, m0, mtl, rest, hsplit, hout, hpw, hm0, hnw⟩
              · exact Or.inl hid
              · refine Or.inr ⟨pre, uuidTok ++ subUUIDAux true rest, (m0 :: mtl) ++ rest,
                  hout.trans (List.append_assoc pre uuidTok _), ?_, by simp [uuidTok]⟩
                rw [hsplit, List.append_assoc]
            rw [hd.1] at hin
            cases hin

theorem subIP_noDate : ∀ (n : Nat) (pw : Bool) (l : List Char), l.length ≤ n →
    noDateScan l = true → noDateScan (subIPAux pw l) = true := by
  intro n
  induction n with
  | zero =>
      intro pw l h1 _
      rw [List.length_eq_zero.mp (Nat.le_zero.mp h1)]
      rfl
  | succ n ih =>
      intro pw l h1 hd
      cases l with
      | nil => rfl
      | cons c cs =>
          have hcs : cs.length ≤ n := by simp at h1; omega
          simp only [noDateScan, Bool.and_eq_true, Bool.not_eq_true'] at hd
          rw [subIP_cons]
          have hemit : noDateScan (c :: subIPAux (isWordChar c) cs) = true := by
            simp only [noDateScan, Bool.and_eq_true, Bool.not_eq_true']
            refine ⟨?_, ih (isWordChar c) cs hcs hd.2⟩
            by_cases hck : checkDate (c :: subIPAux (isWordChar c) cs)
            swap
            · simpa using hck
            exfalso
            have hin : checkDate (c :: cs) = true := by
              refine checkDate_transfer c cs (subIPAux (isWordChar c) cs) hck ?_
              rcases subIP_outshape n (isWordChar c) cs hcs with
                hid | ⟨pre, m0, mtl, rest, hsplit, hout, hpw, hm0, hnw⟩
              · exact Or.inl hid
              · refine Or.inr ⟨pre, ipTok ++ subIPAux true rest, (m0 :: mtl) ++ rest,
                  hout.trans (List.append_assoc pre ipTok _), ?_, by simp [ipTok]⟩
                rw [hsplit, List.append_assoc]
            rw [hd.1] at hin
            cases hin
          cases hk : ipSpan c cs with
          | none => exact hemit
          | some k =>
              simp only
              by_cases hc : (!pw && noWordAhead (cs.drop k))
              · rw [if_pos hc]
                refine noDateScan_append_nondigit ipTok _ (by decide) ?_
                exact ih true (cs.drop k)
                  (le_trans (by rw [List.length_drop]; exact Nat.sub_le _ _) hcs)
                  (noDateScan_drop cs k hd.2)
              · rw [if_neg hc]
                exact hemit

theorem subNum_noDate : ∀ (n : Nat) (pw : Bool) (l : List Char), l.length ≤ n →
    noDateScan l = true → noDateScan (subNumAux pw l) = true := by
  intro n
  induction n with
  | zero =>
      intro pw l h1 _
      rw [List.length_eq_zero.mp (Nat.le_zero.mp h1)]
      rfl
  | succ n ih =>
      intro pw l h1 hd
      cases l with
      | nil => rfl
      | cons c cs =>
          have hcs : cs.length ≤ n := by simp at h1; omega
          simp only [noDateScan, Bool.and_eq_true, Bool.not_eq_true'] at hd
          rw [subNum_cons]
          by_cases hc : (!pw && c.isDigit && noWordAhead (cs.drop (digitSpan cs)))
          · rw [if_pos hc]
            refine noDateScan_append_nondigit numTok _ (by decide) ?_
            exact ih true (cs.drop (digitSpan cs))
              (le_trans (by rw [List.length_drop]; exact Nat.sub_le _ _) hcs)
              (noDateScan_drop cs (digitSpan cs) hd.2)
          · rw [if_neg hc]
            simp only [noDateScan, Bool.and_eq_true, Bool.not_eq_true']
            refine ⟨?_, ih (isWordChar c) cs hcs hd.2⟩
            by_cases hck : checkDate (c :: subNumAux (isWordChar c) cs)
            swap
            · simpa using hck
            exfalso
            have hin : checkDate (c :: cs) = true := by
              refine checkDate_transfer c cs (subNumAux (isWordChar c) cs) hck ?_
              rcases subNum_outshape n (isWordChar c) cs hcs with
                hid | ⟨pre, m0, mtl, rest, hsplit, hout, hpw, hm0, hnw⟩
              · exact Or.inl hid
              · refine Or.inr ⟨pre, numTok ++ subNumAux true rest, (m0 :: mtl) ++ rest,
                  hout.trans (List.append_assoc pre numTok _), ?_, by simp [numTok]⟩
                rw [hsplit, List.append_assoc]
            rw [hd.1] at hin
            cases hin

theorem subUUID_noTime : ∀ (n : Nat) (pw : Bool) (l : List Char), l.length ≤ n →
    noTimeScan l = true → noTimeScan (subUUIDAux pw l) = true := by
  intro n
  induction n with
  | zero =>
      intro pw l h1 _
      rw [List.length_eq_zero.mp (Nat.le_zero.mp h1)]
      rfl
  | succ n ih =>
      intro pw l h1 hd
      cases l with
      | nil => rfl
      | cons c cs =>
          have hcs : cs.length ≤ n := by simp at h1; omega
          simp only [noTimeScan, Bool.and_eq_true, Bool.not_eq_true'] at hd
          rw [subUUID_cons]
          by_cases hc : (!pw && checkUUIDList (c :: cs) && noWordAhead (cs.drop 35))
          · rw [if_pos hc]
            refine noTimeScan_append_nondigit uuidTok _ (by decide) ?_
            exact ih true (cs.drop 35)
              (le_trans (by rw [List.length_drop]; exact Nat.sub_le _ _) hcs)
              (noTimeScan_drop cs 35 hd.2)
          · rw [if_neg hc]
            simp only [noTimeScan, Bool.and_eq_true, Bool.not_eq_true']
            refine ⟨?_, ih (isWordChar c) cs hcs hd.2⟩
            by_cases hck : checkTime (c :: subUUIDAux (isWordChar c) cs)
            swap
            · simpa using hck
            exfalso
            have hin : checkTime (c :: cs) = true := by
              refine checkTime_transfer c cs (subUUIDAux (isWordChar c) cs) hck ?_
              rcases subUUID_outshape n (isWordChar c) cs hcs with
                hid | ⟨pre, m0, mtl, rest, hsplit, hout, hpw, hm0, hnw⟩
              · exact Or.inl hid
              · refine Or.inr ⟨pre, uuidTok ++ subUUIDAux true rest, (m0 :: mtl) ++ rest,
                  hout.trans (List.append_assoc pre uuidTok _), ?_, by simp [uuidTok]⟩
                rw [hsplit, List.append_assoc]
            rw [hd.1] at hin
            cases hin

theorem subIP_noTime : ∀ (n : Nat) (pw : Bool) (l : List Char), l.length ≤ n →
    noTimeScan l = true → noTimeScan (subIPAux pw l) = true := by
  intro n
  induction n with
  | zero =>
      intro pw l h1 _
      rw [List.length_eq_zero.mp (Nat.le_zero.mp h1)]
      rfl
  | succ n ih =>
      intro pw l h1 hd
      cases l with
      | nil => rfl
      | cons c cs =>
          have hcs : cs.length ≤ n := by simp at h1; omega
          simp only [noTimeScan, Bool.and_eq_true, Bool.not_eq_true'] at hd
          rw [subIP_cons]
          have hemit : noTimeScan (c :: subIPAux (isWordChar c) cs) = true := by
            simp only [noTimeScan, Bool.and_eq_true, Bool.not_eq_true']
            refine ⟨?_, ih (isWordChar c) cs hcs hd.2⟩
            by_cases hck : checkTime (c :: subIPAux (isWordChar c) cs)
            swap
            · simpa using hck
            exfalso
            have hin : checkTime (c :: cs) = true := by
              refine checkTime_transfer c cs (subIPAux (isWordChar c) cs) hck ?_
              rcases subIP_outshape n (isWordChar c) cs hcs with
                hid | ⟨pre, m0, mtl, rest, hsplit, hout, hpw, hm0, hnw⟩
              · exact Or.inl hid
              · refine Or.inr ⟨pre, ipTok ++ subIPAux true rest, (m0 :: mtl) ++ rest,
                  hout.trans (List.append_assoc pre ipTok _), ?_, by simp [ipTok]⟩
                rw [hsplit, List.append_assoc]
            rw [hd.1] at hin
            cases hin
          cases hk : ipSpan c cs with
          | none => exact hemit
          | some k =>
              simp only
              by_cases hc : (!pw && noWordAhead (cs.drop k))
              · rw [if_pos hc]
                refine noTimeScan_append_nondigit ipTok _ (by decide) ?_
                exact ih true (cs.drop k)
                  (le_trans (by rw [List.length_drop]; exact Nat.sub_le _ _) hcs)
                  (noTimeScan_drop cs k hd.2)
              · rw [if_neg hc]
                exact hemit

theorem subNum_noTime : ∀ (n : Nat) (pw : Bool) (l : List Char), l.length ≤ n →
    noTimeScan l = true → noTimeScan (subNumAux pw l) = true := by
  intro n
  induction n with
  | zero =>
      intro pw l h1 _
      rw [List.length_eq_zero.mp (Nat.le_zero.mp h1)]
      rfl
  | succ n ih =>
      intro pw l h1 hd
      cases l with
      | nil => rfl
      | cons c cs =>
          have hcs : cs.length ≤ n := by simp at h1; omega
          simp only [noTimeScan, Bool.and_eq_true, Bool.not_eq_true'] at hd
          rw [subNum_cons]
          by_cases hc : (!pw && c.isDigit && noWordAhead (cs.drop (digitSpan cs)))
          · rw [if_pos hc]
            refine noTimeScan_append_nondigit numTok _ (by decide) ?_
            exact ih true (cs.drop (digitSpan cs))
              (le_trans (by rw [List.length_drop]; exact Nat.sub_le _ _) hcs)
              (noTimeScan_drop cs (digitSpan cs) hd.2)
          · rw [if_neg hc]
            simp only [noTimeScan, Bool.and_eq_true, Bool.not_eq_true']
            refine ⟨?_, ih (isWordChar c) cs hcs hd.2⟩
            by_cases hck : checkTime (c :: subNumAux (isWordChar c) cs)
            swap
            · simpa using hck
            exfalso
            have hin : checkTime (c :: cs) = true := by
              refine checkTime_transfer c cs (subNumAux (isWordChar c) cs) hck ?_
              rcases subNum_outshape n (isWordChar c) cs hcs with
                hid | ⟨pre, m0, mtl, rest, hsplit, hout, hpw, hm0, hnw⟩
              · exact Or.inl hid
              · refine Or.inr ⟨pre, numTok ++ subNumAux true rest, (m0 :: mtl) ++ rest,
                  hout.trans (List.append_assoc pre numTok _), ?_, by simp [numTok]⟩
                rw [hsplit, List.append_assoc]
            rw [hd.1] at hin
            cases hin

theorem subNum_noNum : ∀ (n : Nat) (pw : Bool) (l : List Char), l.length ≤ n →
    noNumScan pw (subNumAux pw l) = true := by
  intro n
  induction n with
  | zero =>
      intro pw l h1
      rw [List.length_eq_zero.mp (Nat.le_zero.mp h1)]
      rfl
  | succ n ih =>
      intro pw l h1
      cases l with
      | nil => rfl
      | cons c cs =>
          have hcs : cs.length ≤ n := by simp at h1; omega
          have hdlen : (cs.drop (digitSpan cs)).length ≤ n :=
            le_trans (by rw [List.length_drop]; exact Nat.sub_le _ _) hcs
          rw [subNum_cons]
          by_cases hc : (!pw && c.isDigit && noWordAhead (cs.drop (digitSpan cs)))
          · rw [if_pos hc]
            refine noNumScan_append_nondigit numTok pw _ (by decide) ?_
            have hpA : pwAfter pw numTok = false := rfl
            rw [hpA]
            simp only [Bool.and_eq_true, Bool.not_eq_true'] at hc
            have hihd := ih true (cs.drop (digitSpan cs)) hdlen
            cases hd : cs.drop (digitSpan cs) with
            | nil => rfl
            | cons x xs =>
                rw [hd] at hihd
                have hxw : isWordChar x = false := by
                  have := hc.2
                  rw [hd] at this
                  simpa [noWordAhead] using this
                have hxd : x.isDigit = false := nonword_nondigit x hxw
                rw [subNum_cons_true] at hihd ⊢
                rw [noNumScan_head_nondigit false true x _ hxd]
                exact hihd
          · rw [if_neg hc]
            simp only [noNumScan, Bool.and_eq_true, Bool.not_eq_true']
            refine ⟨?_, ih (isWordChar c) cs hcs⟩
            by_cases hck : (!pw && c.isDigit &&
                noWordAhead ((subNumAux (isWordChar c) cs).drop
                  (digitSpan (subNumAux (isWordChar c) cs))))
            swap
            · simpa using hck
            exfalso
            apply hc
            refine numCond_transfer pw c cs (subNumAux (isWordChar c) cs) hck ?_
            rcases subNum_outshape n (isWordChar c) cs hcs with
              hid | ⟨pre, m0, mtl, rest, hsplit, hout, hpw, hm0, hnw⟩
            · exact Or.inl hid
            · refine Or.inr ⟨pre, numTok ++ subNumAux true rest, (m0 :: mtl) ++ rest,
                hout.trans (List.append_assoc pre numTok _), ?_, hpw⟩
              rw [hsplit, List.append_assoc]

theorem subUUID_noUUID : ∀ (n : Nat) (pw : Bool) (l : List Char), l.length ≤ n →
    noUUIDScan pw (subUUIDAux pw l) = true := by
  intro n
  induction n with
  | zero =>
      intro pw l h1
      rw [List.length_eq_zero.mp (Nat.le_zero.mp h1)]
      rfl
  | succ n ih =>
      intro pw l h1
      cases l with
      | nil => rfl
      | cons c cs =>
          have hcs : cs.length ≤ n := by simp at h1; omega
          have hdlen : (cs.drop 35).length ≤ n :=
            le_trans (by rw [List.length_drop]; exact Nat.sub_le _ _) hcs
          rw [subUUID_cons]
          by_cases hc : (!pw && checkUUIDList (c :: cs) && noWordAhead (cs.drop 35))
          · rw [if_pos hc]
            refine noUUIDScan_append_nonhex uuidTok pw _ (by decide) ?_
            have hpA : pwAfter pw uuidTok = false := rfl
            rw [hpA]
            simp only [Bool.and_eq_true, Bool.not_eq_true'] at hc
            have hihd := ih true (cs.drop 35) hdlen
            cases hd : cs.drop 35 with
            | nil => rfl
            | cons x xs =>
                rw [hd] at hihd
                have hxw : isWordChar x = false := by
                  have := hc.2
                  rw [hd] at this
                  simpa [noWordAhead] using this
                have hxh : isHexLower x = false := nonword_nonhex x hxw
                rw [subUUID_cons_true] at hihd ⊢
                rw [noUUIDScan_head_nonhex false true x _ hxh]
                exact hihd
          · rw [if_neg hc]
            simp only [noUUIDScan, Bool.and_eq_true, Bool.not_eq_true']
            refine ⟨?_, ih (isWordChar c) cs hcs⟩
            by_cases hck : (!pw && checkUUIDList (c :: subUUIDAux (isWordChar c) cs) &&
                noWordAhead ((subUUIDAux (isWordChar c) cs).drop 35))
            swap
            · simpa using hck
            exfalso
            simp only [Bool.and_eq_true, Bool.not_eq_true'] at hck
            obtain ⟨⟨hnpw, hckU⟩, htr⟩ := hck
            have hsh : subUUIDAux (isWordChar c) cs = cs ∨
                ∃ pre rest2 rest3, subUUIDAux (isWordChar c) cs = pre ++ rest2 ∧
                  cs = pre ++ rest3 ∧ rest2.head? = some '<' ∧
                  pwAfter (isWordChar c) pre = false := by
              rcases subUUID_outshape n (isWordChar c) cs hcs with
                hid | ⟨pre, m0, mtl, rest, hsplit, hout, hpw, hm0, hnw⟩
              · exact Or.inl hid
              · refine Or.inr ⟨pre, uuidTok ++ subUUIDAux true rest, (m0 :: mtl) ++ rest,
                  hout.trans (List.append_assoc pre uuidTok _), ?_, by simp [uuidTok], hpw⟩
                rw [hsplit, List.append_assoc]
            obtain ⟨hin, htrin⟩ := uuidCond_transfer c cs _ hckU htr hsh
            apply hc
            simp only [Bool.and_eq_true, Bool.not_eq_true']
            exact ⟨⟨hnpw, hin⟩, htrin⟩

theorem subIP_noIP : ∀ (n : Nat) (pw : Bool) (l : List Char), l.length ≤ n →
    noIPScan pw (subIPAux pw l) = true := by
  intro n
  induction n with
  | zero =>
      intro pw l h1
      rw [List.length_eq_zero.mp (Nat.le_zero.mp h1)]
      rfl
  | succ n ih =>
      intro pw l h1
      cases l with
      | nil => rfl
      | cons c cs =>
          have hcs : cs.length ≤ n := by simp at h1; omega
          rw [subIP_cons]
          have hsh : subIPAux (isWordChar c) cs = cs ∨
              ∃ pre rest2 rest3, subIPAux (isWordChar c) cs = pre ++ rest2 ∧
                cs = pre ++ rest3 ∧ rest2.head? = some '<' ∧
                pwAfter (isWordChar c) pre = false := by
            rcases subIP_outshape n (isWordChar c) cs hcs with
              hid | ⟨pre, m0, mtl, rest, hsplit, hout, hpw, hm0, hnw⟩
            · exact Or.inl hid
            · refine Or.inr ⟨pre, ipTok ++ subIPAux true rest, (m0 :: mtl) ++ rest,
                hout.trans (List.append_assoc pre ipTok _), ?_, by simp [ipTok], hpw⟩
              rw [hsplit, List.append_assoc]
          have hemit : (∀ k0, ipSpan c cs = some k0 →
              (!pw && noWordAhead (cs.drop k0)) = false) →
              noIPScan pw (c :: subIPAux (isWordChar c) cs) = true := by
            intro hnc
            simp only [noIPScan, Bool.and_eq_true]
            refine ⟨?_, ih (isWordChar c) cs hcs⟩
            cases hk' : ipSpan c (subIPAux (isWordChar c) cs) with
            | none => simp
            | some k' =>
                simp only
                by_cases hpw0 : pw
                · simp [hpw0]
                · have hpwf : pw = false := by simpa using hpw0
                  by_cases hnw : noWordAhead ((subIPAux (isWordChar c) cs).drop k')
                  · exfalso
                    obtain ⟨k2, hk2, hnw2⟩ := ipCond_transfer c cs _ k' hk' hnw hsh
                    have hx := hnc k2 hk2
                    rw [hpwf, hnw2] at hx
                    simp at hx
                  · simp only [Bool.not_eq_true] at hnw
                    simp [hnw]
          cases hk : ipSpan c cs with
          | none =>
              exact hemit (fun k0 h0 => by rw [hk] at h0; cases h0)
          | some k =>
              simp only
              by_cases hc : (!pw && noWordAhead (cs.drop k))
              · rw [if_pos hc]
                have hdlen : (cs.drop k).length ≤ n :=
                  le_trans (by rw [List.length_drop]; exact Nat.sub_le _ _) hcs
                refine noIPScan_append_nondigit ipTok pw _ (by decide) ?_
                have hpA : pwAfter pw ipTok = false := rfl
                rw [hpA]
                simp only [Bool.and_eq_true, Bool.not_eq_true'] at hc
                have hihd := ih true (cs.drop k) hdlen
                cases hd : cs.drop k with
                | nil => rfl
                | cons x xs =>
                    rw [hd] at hihd
                    have hxw : isWordChar x = false := by
                      have := hc.2
                      rw [hd] at this
                      simpa [noWordAhead] using this
                    have hxd : x.isDigit = false := nonword_nondigit x hxw
                    rw [subIP_cons_true] at hihd ⊢
                    rw [noIPScan_head_nondigit false true x _ hxd]
                    exact hihd
              · rw [if_neg hc]
                refine hemit (fun k0 h0 => ?_)
                rw [hk] at h0
                injection h0 with h0
                rw [← h0]
                simp only [Bool.not_eq_true] at hc
                exact hc

theorem subIP_noUUID : ∀ (n : Nat) (pw : Bool) (l : List Char), l.length ≤ n →
    noUUIDScan pw l = true → noUUIDScan pw (subIPAux pw l) = true := by
  intro n
  induction n with
  | zero =>
      intro pw l h1 _
      rw [List.length_eq_zero.mp (Nat.le_zero.mp h1)]
      rfl
  | succ n ih =>
      intro pw l h1 hU
      cases l with
      | nil => rfl
      | cons c cs =>
          have hcs : cs.length ≤ n := by simp at h1; omega
          simp only [noUUIDScan, Bool.and_eq_true, Bool.not_eq_true'] at hU
          rw [subIP_cons]
          have hsh : subIPAux (isWordChar c) cs = cs ∨
              ∃ pre rest2 rest3, subIPAux (isWordChar c) cs = pre ++ rest2 ∧
                cs = pre ++ rest3 ∧ rest2.head? = some '<' ∧
                pwAfter (isWordChar c) pre = false := by
            rcases subIP_outshape n (isWordChar c) cs hcs with
              hid | ⟨pre, m0, mtl, rest, hsplit, hout, hpw, hm0, hnw⟩
            · exact Or.inl hid
            · refine Or.inr ⟨pre, ipTok ++ subIPAux true rest, (m0 :: mtl) ++ rest,
                hout.trans (List.append_assoc pre ipTok _), ?_, by simp [ipTok], hpw⟩
              rw [hsplit, List.append_assoc]
          have hemit : noUUIDScan pw (c :: subIPAux (isWordChar c) cs) = true := by
            simp only [noUUIDScan, Bool.and_eq_true, Bool.not_eq_true']
            refine ⟨?_, ih (isWordChar c) cs hcs hU.2⟩
            by_cases hck : (!pw && checkUUIDList (c :: subIPAux (isWordChar c) cs) &&
                noWordAhead ((subIPAux (isWordChar c) cs).drop 35))
            swap
            · simpa using hck
            exfalso
            simp only [Bool.and_eq_true, Bool.not_eq_true'] at hck
            obtain ⟨⟨hnpw, hckU⟩, htr⟩ := hck
            obtain ⟨hin, htrin⟩ := uuidCond_transfer c cs _ hckU htr hsh
            have hx := hU.1
            rw [hnpw, hin, htrin] at hx
            simp at hx
          cases hk : ipSpan c cs with
          | none => exact hemit
          | some k =>
              simp only
              by_cases hc : (!pw && noWordAhead (cs.drop k))
              · rw [if_pos hc]
                have hdlen : (cs.drop k).length ≤ n :=
                  le_trans (by rw [List.length_drop]; exact Nat.sub_le _ _) hcs
                refine noUUIDScan_append_nonhex ipTok pw _ (by decide) ?_
                have hpA : pwAfter pw ipTok = false := rfl
                rw [hpA]
                simp only [Bool.and_eq_true, Bool.not_eq_true'] at hc
                have hihd := ih true (cs.drop k) hdlen
                  (noUUIDScan_drop cs k (isWordChar c) hU.2)
                cases hd : cs.drop k with
                | nil => rfl
                | cons x xs =>
                    rw [hd] at hihd
                    have hxw : isWordChar x = false := by
                      have := hc.2
                      rw [hd] at this
                      simpa [noWordAhead] using this
                    have hxh : isHexLower x = false := nonword_nonhex x hxw
                    rw [subIP_cons_true] at hihd ⊢
                    rw [noUUIDScan_head_nonhex false true x _ hxh]
                    exact hihd
              · rw [if_neg hc]
                exact hemit

theorem subNum_noUUID : ∀ (n : Nat) (pw : Bool) (l : List Char), l.length ≤ n →
    noUUIDScan pw l = true → noUUIDScan pw (subNumAux pw l) = true := by
  intro n
  induction n with
  | zero =>
      intro pw l h1 _
      rw [List.length_eq_zero.mp (Nat.le_zero.mp h1)]
      rfl
  | succ n ih =>
      intro pw l h1 hU
      cases l with
      | nil => rfl
      | cons c cs =>
          have hcs : cs.length ≤ n := by simp at h1; omega
          simp only [noUUIDScan, Bool.and_eq_true, Bool.not_eq_true'] at hU
          rw [subNum_cons]
          by_cases hc : (!pw && c.isDigit && noWordAhead (cs.drop (digitSpan cs)))
          · rw [if_pos hc]
            have hdlen : (cs.drop (digitSpan cs)).length ≤ n :=
              le_trans (by rw [List.length_drop]; exact Nat.sub_le _ _) hcs
            refine noUUIDScan_append_nonhex numTok pw _ (by decide) ?_
            have hpA : pwAfter pw numTok = false := rfl
            rw [hpA]
            simp only [Bool.and_eq_true, Bool.not_eq_true'] at hc
            have hihd := ih true (cs.drop (digitSpan cs)) hdlen
              (noUUIDScan_drop cs (digitSpan cs) (isWordChar c) hU.2)
            cases hd : cs.drop (digitSpan cs) with
            | nil => rfl
            | cons x xs =>
                rw [hd] at hihd
                have hxw : isWordChar x = false := by
                  have := hc.2
                  rw [hd] at this
                  simpa [noWordAhead] using this
                have hxh : isHexLower x = false := nonword_nonhex x hxw
                rw [subNum_cons_true] at hihd ⊢
                rw [noUUIDScan_head_nonhex false true x _ hxh]
                exact hihd
          · rw [if_neg hc]
            simp only [noUUIDScan, Bool.and_eq_true, Bool.not_eq_true']
            refine ⟨?_, ih (isWordChar c) cs hcs hU.2⟩
            by_cases hck : (!pw && checkUUIDList (c :: subNumAux (isWordChar c) cs) &&
                noWordAhead ((subNumAux (isWordChar c) cs).drop 35))
            swap
            · simpa using hck
            exfalso
            simp only [Bool.and_eq_true, Bool.not_eq_true'] at hck
            obtain ⟨⟨hnpw, hckU⟩, htr⟩ := hck
            have hsh : subNumAux (isWordChar c) cs = cs ∨
                ∃ pre rest2 rest3, subNumAux (isWordChar c) cs = pre ++ rest2 ∧
                  cs = pre ++ rest3 ∧ rest2.head? = some '<' ∧
                  pwAfter (isWordChar c) pre = false := by
              rcases subNum_outshape n (isWordChar c) cs hcs with
                hid | ⟨pre, m0, mtl, rest, hsplit, hout, hpw, hm0, hnw⟩
              · exact Or.inl hid
              · refine Or.inr ⟨pre, numTok ++ subNumAux true rest, (m0 :: mtl) ++ rest,
                  hout.trans (List.append_assoc pre numTok _), ?_, by simp [numTok], hpw⟩
                rw [hsplit, List.append_assoc]
            obtain ⟨hin, htrin⟩ := uuidCond_transfer c cs _ hckU htr hsh
            have hx := hU.1
            rw [hnpw, hin, htrin] at hx
            simp at hx

theorem subNum_noIP : ∀ (n : Nat) (pw : Bool) (l : List Char), l.length ≤ n →
    noIPScan pw l = true → noIPScan pw (subNumAux pw l) = true := by
  intro n
  induction n with
  | zero =>
      intro pw l h1 _
      rw [List.length_eq_zero.mp (Nat.le_zero.mp h1)]
      rfl
  | succ n ih =>
      intro pw l h1 hU
      cases l with
      | nil => rfl
      | cons c cs =>
          have hcs : cs.length ≤ n := by simp at h1; omega
          simp only [noIPScan, Bool.and_eq_true] at hU
          rw [subNum_cons]
          by_cases hc : (!pw && c.isDigit && noWordAhead (cs.drop (digitSpan cs)))
          · rw [if_pos hc]
            have hdlen : (cs.drop (digitSpan cs)).length ≤ n :=
              le_trans (by rw [List.length_drop]; exact Nat.sub_le _ _) hcs
            refine noIPScan_append_nondigit numTok pw _ (by decide) ?_
            have hpA : pwAfter pw numTok = false := rfl
            rw [hpA]
            simp only [Bool.and_eq_true, Bool.not_eq_true'] at hc
            have hihd := ih true (cs.drop (digitSpan cs)) hdlen
              (noIPScan_drop cs (digitSpan cs) (isWordChar c) hU.2)
            cases hd : cs.drop (digitSpan cs) with
            | nil => rfl
            | cons x xs =>
                rw [hd] at hihd
                have hxw : isWordChar x = false := by
                  have := hc.2
                  rw [hd] at this
                  simpa [noWordAhead] using this
                have hxd : x.isDigit = false := nonword_nondigit x hxw
                rw [subNum_cons_true] at hihd ⊢
                rw [noIPScan_head_nondigit false true x _ hxd]
                exact hihd
          · rw [if_neg hc]
            simp only [noIPScan, Bool.and_eq_true]
            refine ⟨?_, ih (isWordChar c) cs hcs hU.2⟩
            cases hk' : ipSpan c (subNumAux (isWordChar c) cs) with
            | none => simp
            | some k' =>
                simp only
                by_cases hpw0 : pw
                · simp [hpw0]
                · have hpwf : pw = false := by simpa using hpw0
                  by_cases hnw : noWordAhead ((subNumAux (isWordChar c) cs).drop k')
                  · exfalso
                    have hsh : subNumAux (isWordChar c) cs = cs ∨
                        ∃ pre rest2 rest3, subNumAux (isWordChar c) cs = pre ++ rest2 ∧
                          cs = pre ++ rest3 ∧ rest2.head? = some '<' ∧
                          pwAfter (isWordChar c) pre = false := by
                      rcases subNum_outshape n (isWordChar c) cs hcs with
                        hid | ⟨pre, m0, mtl, rest, hsplit, hout, hpw, hm0, hnw2⟩
                      · exact Or.inl hid
                      · refine Or.inr ⟨pre, numTok ++ subNumAux true rest,
                          (m0 :: mtl) ++ rest,
                          hout.trans (List.append_assoc pre numTok _), ?_,
                          by simp [numTok], hpw⟩
                        rw [hsplit, List.append_assoc]
                    obtain ⟨k2, hk2, hnw2⟩ := ipCond_transfer c cs _ k' hk' hnw hsh
                    have hx := hU.1
                    rw [hk2] at hx
                    simp only at hx
                    rw [hpwf, hnw2] at hx
                    simp at hx
                  · simp only [Bool.not_eq_true] at hnw
                    simp [hnw]

/-- C2: the message normalizer of `LogClassifier._normalize_message` is
idempotent — applying the five masking rules (ISO date, time, UUID, IPv4,
digit run, in that fixed order) a second time changes nothing: for every
character string `m`, `normalize(normalize(m)) = normalize(m)`. -/
theorem claim_C2_normalize_idempotent (m : List Char) :
    normalizeMessage (normalizeMessage m) = normalizeMessage m := by
  have hD : noDateScan (normalizeMessage m) = true := by
    unfold normalizeMessage
    exact subNum_noDate _ false _ (le_refl _)
      (subIP_noDate _ false _ (le_refl _)
        (subUUID_noDate _ false _ (le_refl _)
          (subTime_noDate _ _ (le_refl _)
            (subDate_noDate _ _ (le_refl _)))))
  have hT : noTimeScan (normalizeMessage m) = true := by
    unfold normalizeMessage
    exact subNum_noTime _ false _ (le_refl _)
      (subIP_noTime _ false _ (le_refl _)
        (subUUID_noTime _ false _ (le_refl _)
          (subTime_noTime _ _ (le_refl _))))
  have hU : noUUIDScan false (normalizeMessage m) = true := by
    unfold normalizeMessage
    exact subNum_noUUID _ false _ (le_refl _)
      (subIP_noUUID _ false _ (le_refl _)
        (subUUID_noUUID _ false _ (le_refl _)))
  have hI : noIPScan false (normalizeMessage m) = true := by
    unfold normalizeMessage
    exact subNum_noIP _ false _ (le_refl _)
      (subIP_noIP _ false _ (le_refl _))
  have hN : noNumScan false (normalizeMessage m) = true := by
    unfold normalizeMessage
    exact subNum_noNum _ false _ (le_refl _)
  rw [show normalizeMessage (normalizeMessage m) =
      subNumAux false (subIPAux false (subUUIDAux false (subTime (subDate
        (normalizeMessage m))))) from rfl,
    subDate_id _ hD, subTime_id _ hT, subUUID_id false _ hU, subIP_id false _ hI,
    subNum_id false _ hN]
